import Mathlib

/-!
# z2079516.cxx: appending to a permission-locked file

A shallow embedding of `z2079516.cxx`.  The program's two functions, `write_all`
and `main`, are translated line by line.  The system calls they issue
(`stat`, `open`, `close`, `chmod`, `write`) act on a small model of the
operating system: one file slot (the file at `path`, the only path the program
names), a descriptor table, a clock that counts system calls, and an
environment `Env` that decides which calls fail and how many bytes each write
accepts.  Every call is appended to a chronological trace.

Strings of the C program are NUL-free byte strings; a `Char` of the model
stands for one byte.
-/

namespace Z2079516

/-! ## The operating-system model -/

/-- Error numbers of `<errno.h>` that the model produces (Linux values). -/
abbrev ENOENT : Nat := 2
/-- Interrupted system call. -/
abbrev EINTR : Nat := 4
/-- Bad file descriptor. -/
abbrev EBADF : Nat := 9
/-- Permission denied. -/
abbrev EACCES : Nat := 13
/-- File exists. -/
abbrev EEXIST : Nat := 17

/-- File-type bits of a regular file in `st_mode`. -/
abbrev S_IFREG : Nat := 0o100000

/-- One more than `SIZE_MAX`: arithmetic on `size_t` is modulo this. -/
abbrev SIZE_MOD : Nat := 2 ^ 64

/-- The file at `path`: its `st_mode` (type bits and the twelve mode bits) and
its bytes. -/
structure File where
  mode : Nat
  content : List Char
deriving DecidableEq, Repr

/-- Flags of `open`; `O_WRONLY` is set in every call the program makes. -/
structure OFlags where
  creat : Bool
  excl : Bool
  trunc : Bool
  append : Bool
deriving DecidableEq, Repr

/-- A system call on `path` (or on a descriptor of it) with its arguments.
The buffer of a `write` is the byte string that starts at the pointer passed. -/
inductive Call where
  | stat
  | open (flags : OFlags) (perm : Nat)
  | close (fd : Nat)
  | chmod (perm : Nat)
  | write (fd : Nat) (buf : List Char) (count : Nat)
deriving DecidableEq, Repr

/-- What a system call returns: a non-negative value, or -1 with `errno`. -/
inductive Ret where
  | ok (v : Nat)
  | err (errno : Nat)
deriving DecidableEq, Repr

/-- One entry of the trace: the call, what it returned, and the `st_mode` of
the file right after the call (`none` while the file does not exist). -/
structure Event where
  call : Call
  ret : Ret
  mode : Option Nat
deriving DecidableEq, Repr

/-- The environment.  `fault t c` is the error injected into call `c` when it
is the `t`-th system call of the run (`none`: the call takes its normal
course); `accept t count` is the number of bytes a write of `count` bytes
accepts when it is the `t`-th call and takes its normal course. -/
structure Env where
  fault : Nat → Call → Option Nat
  accept : Nat → Nat → Nat

/-- State of the world around the program. -/
structure World where
  file : Option File
  fds : List Nat
  clock : Nat
  trace : List Event
  stderr : List String

/-- The world in which the program starts: the file as given, no descriptor
of it open, nothing traced. -/
def boot (file : Option File) : World :=
  { file := file, fds := [], clock := 0, trace := [], stderr := [] }

/-- A system call completes: the clock ticks and the call is traced. -/
def World.reply (w : World) (c : Call) (r : Ret) (file : Option File) (fds : List Nat) :
    Ret × World :=
  (r, { file := file, fds := fds, clock := w.clock + 1,
        trace := w.trace ++ [⟨c, r, file.map File.mode⟩], stderr := w.stderr })

/-- Lowest descriptor number that is not open; 0, 1 and 2 are the standard
streams. -/
def allocFd (fds : List Nat) : Nat :=
  (((List.range (fds.length + 1)).map (· + 3)).find? (fun n => !fds.contains n)).getD
    (fds.length + 3)

/-- Model of `stat(path, &st)`: the value returned on success is `st.st_mode`. -/
def sys_stat (env : Env) (w : World) : Ret × World :=
  match env.fault w.clock Call.stat with
  | some e => w.reply Call.stat (Ret.err e) w.file w.fds
  | none =>
    match w.file with
    | none => w.reply Call.stat (Ret.err ENOENT) w.file w.fds
    | some f => w.reply Call.stat (Ret.ok f.mode) w.file w.fds

/-- Model of `open(path, O_WRONLY | flags, perm)`.  A file that is created gets
the mode bits `perm` (the program passes 0, which no umask changes) and the
descriptor is writable whatever they are; an existing file is opened only
when its owner-write bit is set (the caller owns the file and is not
privileged); `O_TRUNC` empties it. -/
def sys_open (env : Env) (w : World) (flags : OFlags) (perm : Nat) : Ret × World :=
  let c := Call.open flags perm
  match env.fault w.clock c with
  | some e => w.reply c (Ret.err e) w.file w.fds
  | none =>
    match w.file with
    | none =>
      if flags.creat then
        w.reply c (Ret.ok (allocFd w.fds)) (some ⟨S_IFREG + perm % 4096, []⟩)
          (allocFd w.fds :: w.fds)
      else w.reply c (Ret.err ENOENT) w.file w.fds
    | some f =>
      if flags.creat && flags.excl then w.reply c (Ret.err EEXIST) w.file w.fds
      else if f.mode &&& 0o200 = 0 then w.reply c (Ret.err EACCES) w.file w.fds
      else
        w.reply c (Ret.ok (allocFd w.fds))
          (some ⟨f.mode, if flags.trunc then [] else f.content⟩) (allocFd w.fds :: w.fds)

/-- Model of `close(fd)`.  The descriptor is released also when the call
reports an error, as on Linux. -/
def sys_close (env : Env) (w : World) (fd : Nat) : Ret × World :=
  let c := Call.close fd
  match env.fault w.clock c with
  | some e => w.reply c (Ret.err e) w.file (w.fds.erase fd)
  | none =>
    if fd ∈ w.fds then w.reply c (Ret.ok 0) w.file (w.fds.erase fd)
    else w.reply c (Ret.err EBADF) w.file w.fds

/-- Model of `chmod(path, perm)`: the twelve mode bits are replaced, the
file-type bits stay. -/
def sys_chmod (env : Env) (w : World) (perm : Nat) : Ret × World :=
  let c := Call.chmod perm
  match env.fault w.clock c with
  | some e => w.reply c (Ret.err e) w.file w.fds
  | none =>
    match w.file with
    | none => w.reply c (Ret.err ENOENT) w.file w.fds
    | some f => w.reply c (Ret.ok 0) (some ⟨f.mode / 4096 * 4096 + perm % 4096, f.content⟩) w.fds

/-- Model of `write(fd, buf, count)`.  The bytes accepted go to the end of the
file: a descriptor opened with `O_APPEND` writes there by definition, and one
opened with `O_TRUNC` starts at offset 0 of an empty file and is the only
writer. -/
def sys_write (env : Env) (w : World) (fd : Nat) (buf : List Char) (count : Nat) : Ret × World :=
  let c := Call.write fd buf count
  match env.fault w.clock c with
  | some e => w.reply c (Ret.err e) w.file w.fds
  | none =>
    if fd ∈ w.fds then
      match w.file with
      | none => w.reply c (Ret.err EBADF) w.file w.fds
      | some f =>
        w.reply c (Ret.ok (env.accept w.clock count))
          (some ⟨f.mode, f.content ++ buf.take (env.accept w.clock count)⟩) w.fds
    else w.reply c (Ret.err EBADF) w.file w.fds

/-- Text goes to the error stream (`fprintf(stderr, ...)`). -/
def World.say (w : World) (text : String) : World :=
  { w with stderr := w.stderr ++ [text] }

/-- Model of `perror(s)`: the label `s` goes to the error stream; the
description of `errno` that follows it in the real output is left out. -/
def World.perror (w : World) (s : String) : World :=
  w.say s

/-! ## The program -/

/-- The text `usage(p)` prints. -/
def usageText (p : String) : String :=
  "Usage: " ++ p ++ " [-c] out_file message_string\n" ++
    "  where the message_string is appended to out_file.\n" ++
    "  The -c option clears the file before the message is appended.\n"

/-- The function `usage(p)` (lines 14-20). -/
def usage (p : String) (w : World) : World :=
  w.say (usageText p)

/-- The loop of `write_all` (lines 25-29), from offset `i`.  `fuel` bounds the
number of iterations; `none` as result means the bound was reached with the
loop still running. -/
def write_all_loop (env : Env) (fd : Nat) (s : List Char) (n : Nat) :
    Nat → Nat → World → Option Int × World
  | 0, _, w => (none, w)
  | fuel + 1, i, w =>
    if i < n then
      match sys_write env w fd (s.drop i) (n - i) with
      | (Ret.err e, w1) =>
        if e = EINTR then write_all_loop env fd s n fuel i w1 else (some (-1), w1)
      | (Ret.ok k, w1) => write_all_loop env fd s n fuel ((i + k) % SIZE_MOD) w1
    else (some 0, w)

/-- The function `write_all(fd, s, n)` (lines 23-31). -/
def write_all (fuel : Nat) (env : Env) (w : World) (fd : Nat) (s : List Char) (n : Nat) :
    Option Int × World :=
  write_all_loop env fd s n fuel 0 w

/-- The argument scan of `main` (lines 39-43) over `argv[1..]`, threading
`(clear, path, msg)`; a null pointer is `none`. -/
def scanArgs : List String → Bool × Option String × Option String →
    Bool × Option String × Option String
  | [], acc => acc
  | a :: rest, (clear, path, msg) =>
    if a = "-c" then scanArgs rest (true, path, msg)
    else match path with
      | none => scanArgs rest (clear, some a, msg)
      | some p =>
        match msg with
        | none => scanArgs rest (clear, some p, some a)
        | some m => scanArgs rest (clear, some p, some m)

/-- Lines 76-79 of `main`: the message could not be written. -/
def main_write_failed (env : Env) (w : World) (fd : Nat) : Option Int × World :=
  match sys_close env (w.perror "write") fd with
  | (_, w2) =>
    match sys_chmod env w2 0 with
    | (_, w3) => (some 9, w3)

/-- Lines 74-86 of `main`, reached with `fd` open for writing. -/
def main_write (fuel : Nat) (env : Env) (msg : String) (w : World) (fd : Nat) :
    Option Int × World :=
  match write_all fuel env w fd msg.toList msg.length with
  | (none, w3) => (none, w3)
  | (some r1, w3) =>
    if r1 < 0 then main_write_failed env w3 fd
    else
      match write_all fuel env w3 fd ['\n'] 1 with
      | (none, w4) => (none, w4)
      | (some r2, w4) =>
        if r2 < 0 then main_write_failed env w4 fd
        else
          match sys_chmod env w4 0 with
          | (Ret.err _, w5) =>
            match sys_close env (w5.perror "chmod 000") fd with
            | (Ret.err _, w7) => (some 10, w7.perror "close")
            | (Ret.ok _, w7) => (some 0, w7)
          | (Ret.ok _, w5) =>
            match sys_close env w5 fd with
            | (Ret.err _, w7) => (some 10, w7.perror "close")
            | (Ret.ok _, w7) => (some 0, w7)

/-- Lines 56-72 of `main`, reached with `st` filled in by a successful `stat`,
followed by the write. -/
def main_secured (fuel : Nat) (env : Env) (clear : Bool) (path msg : String) (st_mode : Nat)
    (w : World) : Option Int × World :=
  if st_mode &&& 0o777 ≠ 0 then (some 6, w.say (path ++ " is not secure. Ignoring.\n"))
  else
    match sys_chmod env w 0o200 with
    | (Ret.err _, w1) => (some 7, w1.perror "chmod +w")
    | (Ret.ok _, w1) =>
      match sys_open env w1 ⟨false, false, clear, !clear⟩ 0 with
      | (Ret.err _, w2) =>
        match sys_chmod env (w2.perror "open") 0 with
        | (_, w4) => (some 8, w4)
      | (Ret.ok fd, w2) => main_write fuel env msg w2 fd

/-- The function `main(argc, argv)`; `argv` includes `argv[0]`.  The result is
the value returned (`none` if `fuel` did not suffice for a `write_all` loop)
and the world left behind. -/
def main (fuel : Nat) (env : Env) (argv : List String) (w : World) : Option Int × World :=
  match scanArgs (argv.drop 1) (false, none, none) with
  | (clear, some path, some msg) =>
    match sys_stat env w with
    | (Ret.ok st_mode, w0) => main_secured fuel env clear path msg st_mode w0
    | (Ret.err e, w0) =>
      if e ≠ ENOENT then (some 2, w0.perror "stat")
      else
        match sys_open env w0 ⟨true, true, false, false⟩ 0 with
        | (Ret.err _, w1) => (some 3, w1.perror "open(create)")
        | (Ret.ok cfd, w1) =>
          match sys_close env w1 cfd with
          | (Ret.err _, w2) => (some 4, w2.perror "close(create)")
          | (Ret.ok _, w2) =>
            match sys_stat env w2 with
            | (Ret.err _, w3) => (some 5, w3.perror "stat(after create)")
            | (Ret.ok st_mode, w3) => main_secured fuel env clear path msg st_mode w3
  | (_, _, _) => (some 1, usage (argv.headD "(null)") w)

/-- An environment without faults whose writes accept every byte offered. -/
def calmEnv : Env := { fault := fun _ _ => none, accept := fun _ count => count }

/-- An environment that interrupts the call at clock 3 when it is a write, and
whose writes accept one byte at a time. -/
def choppyEnv : Env :=
  { fault := fun t c => match c with
      | Call.write _ _ _ => if t = 3 then some EINTR else none
      | _ => none
    accept := fun _ count => min count 1 }

/-! ## Reading a trace -/

/-- The call is a `write`. -/
def Call.isWrite : Call → Bool
  | Call.write _ _ _ => true
  | _ => false

/-- The event is a `write` that failed with an error other than `EINTR`. -/
def Event.fatalWrite (e : Event) : Bool :=
  match e.call, e.ret with
  | Call.write _ _ _, Ret.err errno => errno != EINTR
  | _, _ => false

/-- The event is a `write` that accepted bytes. -/
def Event.okWrite (e : Event) : Bool :=
  match e.call, e.ret with
  | Call.write _ _ _, Ret.ok _ => true
  | _, _ => false

/-- Number of bytes an event's write accepted (0 for anything else). -/
def Event.taken (e : Event) : Nat :=
  match e.call, e.ret with
  | Call.write _ _ _, Ret.ok k => k
  | _, _ => 0

/-- The bytes an event's write accepted: the first `k` bytes of its buffer. -/
def Event.bytes (e : Event) : List Char :=
  match e.call, e.ret with
  | Call.write _ buf _, Ret.ok k => buf.take k
  | _, _ => []

/-- Total number of bytes accepted along a stretch of trace. -/
def acceptedCount : List Event → Nat
  | [] => 0
  | e :: rest => e.taken + acceptedCount rest

/-- The bytes accepted along a stretch of trace, concatenated in order. -/
def acceptedBytes : List Event → List Char
  | [] => []
  | e :: rest => e.bytes ++ acceptedBytes rest

/-- The descriptors in use after an event: an `open` that succeeded adds the
descriptor it returned, a `close` takes its argument away, whatever it
returns. -/
def liveStep (live : List Nat) (e : Event) : List Nat :=
  match e.call, e.ret with
  | Call.open _ _, Ret.ok fd => fd :: live
  | Call.close fd, _ => live.erase fd
  | _, _ => live

/-- The descriptors in use after a stretch of trace that starts with `live` in
use. -/
def liveAfter : List Nat → List Event → List Nat
  | live, [] => live
  | live, e :: rest => liveAfter (liveStep live e) rest

/-- At every moment of a stretch of trace that starts with `live` in use, at
most one descriptor is in use, and none is when a `stat` is made. -/
def OneAtATime : List Nat → List Event → Prop
  | live, [] => live.length ≤ 1
  | live, e :: rest =>
    live.length ≤ 1 ∧ (e.call = Call.stat → live = []) ∧ OneAtATime (liveStep live e) rest

/-- The event is an `open` without `O_CREAT`: the open for writing. -/
def Event.opensForWrite (e : Event) : Bool :=
  match e.call with
  | Call.open flags _ => !flags.creat
  | _ => false

/-- The outcome code of a step that fails, as the specification lists them,
given the events before it (`none`: the step does not fail).  A `stat` that
reports `ENOENT` at the very start means that the file is absent, a write
that is interrupted is repeated, and a `chmod` to 0 that fails is only
logged: none of the three is a failing step. -/
def stepCode (before : List Event) (e : Event) : Option Int :=
  match e.call, e.ret with
  | Call.stat, Ret.err errno =>
    if before.isEmpty then (if errno = ENOENT then none else some 2) else some 5
  | Call.stat, Ret.ok st_mode => if st_mode &&& 0o777 ≠ 0 then some 6 else none
  | Call.open flags _, Ret.err _ => if flags.creat then some 3 else some 8
  | Call.close _, Ret.err _ => if before.any Event.opensForWrite then some 10 else some 4
  | Call.chmod perm, Ret.err _ => if perm = 0 then none else some 7
  | Call.write _ _ _, Ret.err errno => if errno = EINTR then none else some 9
  | _, Ret.ok _ => none

/-- The code of the first failing step of a stretch of trace that comes after
`before`, if a step fails. -/
def firstFailure : List Event → List Event → Option Int
  | _, [] => none
  | before, e :: rest =>
    match stepCode before e with
    | some c => some c
    | none => firstFailure (before ++ [e]) rest

/-- The outcome code the specification gives a run with this trace: the code
of the first failing step, 0 when no step fails. -/
def specCode (trace : List Event) : Int :=
  (firstFailure [] trace).getD 0

/-- Two environments that differ at most in what happens to a `chmod` to 0. -/
def Env.SameButRestore (env env2 : Env) : Prop :=
  (∀ t c, c ≠ Call.chmod 0 → env2.fault t c = env.fault t c) ∧ env2.accept = env.accept

/-- Whether a successful elevation to 0200 still waits for a `chmod` to 0
after an event: a `chmod` to 0200 that succeeds starts the wait, a `chmod`
to 0 ends it, whatever it returns. -/
def restoreStep (pending : Bool) (e : Event) : Bool :=
  match e.call, e.ret with
  | Call.chmod perm, Ret.ok _ => if perm = 0 then false else if perm = 0o200 then true else pending
  | Call.chmod perm, Ret.err _ => if perm = 0 then false else pending
  | _, _ => pending

/-- Whether, at the end of a stretch of trace, a successful elevation still
waits for its `chmod` to 0. -/
def awaitsRestore : Bool → List Event → Bool
  | pending, [] => pending
  | pending, e :: rest => awaitsRestore (restoreStep pending e) rest

/-- Whether the file is elevated after an event: the last `chmod` that
succeeded was the one to 0200. -/
def elevatedStep (elevated : Bool) (e : Event) : Bool :=
  match e.call, e.ret with
  | Call.chmod perm, Ret.ok _ => decide (perm = 0o200)
  | _, _ => elevated

/-- At every moment of a stretch of trace at which the file exists, its
permission bits are 0200 if the last `chmod` that succeeded was the elevating
one, and 0 otherwise. -/
def InWindow : Bool → List Event → Prop
  | _, [] => True
  | elevated, e :: rest =>
    (∀ m, e.mode = some m → m &&& 0o777 = if elevatedStep elevated e then 0o200 else 0) ∧
      InWindow (elevatedStep elevated e) rest

/-- The write discipline of `write_all(fd, s, n)` along a stretch of trace that
starts with `i` bytes accepted: every event is a `write` on `fd` of the
`n - i` bytes at `s + i` with `i < n`, where `i` is the number of bytes
accepted so far; after `EINTR` the next write is at the same offset; nothing
follows a write that failed otherwise. -/
def WritesFrom (fd : Nat) (s : List Char) (n : Nat) : Nat → List Event → Prop
  | _, [] => True
  | i, e :: rest =>
    i < n ∧ e.call = Call.write fd (s.drop i) (n - i) ∧
      match e.ret with
      | Ret.ok k => WritesFrom fd s n (i + k) rest
      | Ret.err errno => if errno = EINTR then WritesFrom fd s n i rest else rest = []

/-- Every write that takes its normal course accepts at least one byte and at
most the bytes requested. -/
def Env.WellFormed (env : Env) : Prop :=
  ∀ t count, 0 < count → 1 ≤ env.accept t count ∧ env.accept t count ≤ count

/-- No call is made to fail, except that a `write` may be interrupted. -/
def Env.Gentle (env : Env) : Prop :=
  ∀ t c, env.fault t c = none ∨ (c.isWrite = true ∧ env.fault t c = some EINTR)

/-- From clock `b` on no call is interrupted: only finitely many are. -/
def Env.CalmFrom (env : Env) (b : Nat) : Prop :=
  ∀ t c, b ≤ t → env.fault t c ≠ some EINTR

/-- What a run of the loop of `write_all` from offset `i` in world `w`, with
result `res`, has added to the trace (`evs`) and done to the world. -/
def LoopPost (env : Env) (fd : Nat) (s : List Char) (n i : Nat) (w : World)
    (res : Option Int × World) (evs : List Event) : Prop :=
  res.2.trace = w.trace ++ evs ∧
  res.2.file = w.file.map (fun f => ⟨f.mode, f.content ++ acceptedBytes evs⟩) ∧
  res.2.fds = w.fds ∧ res.2.stderr = w.stderr ∧ res.2.clock = w.clock + evs.length ∧
  (∀ e ∈ evs, e.call.isWrite = true ∧ e.mode = w.file.map File.mode) ∧
  (res.1 = none ∨ res.1 = some 0 ∨ res.1 = some (-1)) ∧
  (res.1 = some (-1) ↔ ∃ e ∈ evs, e.fatalWrite = true) ∧
  (env.Gentle → fd ∈ w.fds → w.file.isSome = true → ∀ e ∈ evs, e.fatalWrite = false) ∧
  (env.WellFormed → n < SIZE_MOD → i ≤ n →
    WritesFrom fd s n i evs ∧ i + acceptedCount evs ≤ n ∧
    (evs.filter Event.okWrite).length ≤ acceptedCount evs ∧
    (res.1 = some 0 → i + acceptedCount evs = n ∧ acceptedBytes evs = (s.drop i).take (n - i)) ∧
    ((∃ e ∈ evs, e.fatalWrite = true) → i + acceptedCount evs < n))

/-! ## The traces `main` can leave -/

/-- The world after a system call `c` that returned `r`, with the file and the
descriptor table as given. -/
def World.after (w : World) (c : Call) (r : Ret) (file : Option File) (fds : List Nat) : World :=
  { file := file, fds := fds, clock := w.clock + 1,
    trace := w.trace ++ [⟨c, r, file.map File.mode⟩], stderr := w.stderr }

/-- A `chmod(path, 0)` on mode `m` returned `rm` and left mode `m2`: it failed
and the mode stayed, or it succeeded and the twelve mode bits are 0. -/
def Restored (m : Nat) (rm : Ret) (m2 : Nat) : Prop :=
  (∃ e, rm = Ret.err e ∧ m2 = m) ∨ (∃ v, rm = Ret.ok v ∧ m2 = m / 4096 * 4096 + 0 % 4096)

/-- How lines 74-86 end after the writes, on descriptor `fd` of a file of
mode `m`: whether a write failed for good, the value returned, the calls
after the writes, the mode left. -/
inductive Finish (fd m : Nat) : Bool → Option Int → List Event → Nat → Prop
  | stalled : Finish fd m false none [] m
  | failed (rc rm : Ret) (m2 : Nat) : Restored m rm m2 →
      Finish fd m true (some 9)
        [⟨Call.close fd, rc, some m⟩, ⟨Call.chmod 0, rm, some m2⟩] m2
  | unclosed (rm : Ret) (e m2 : Nat) : Restored m rm m2 →
      Finish fd m false (some 10)
        [⟨Call.chmod 0, rm, some m2⟩, ⟨Call.close fd, Ret.err e, some m2⟩] m2
  | done (rm : Ret) (v m2 : Nat) : Restored m rm m2 →
      Finish fd m false (some 0)
        [⟨Call.chmod 0, rm, some m2⟩, ⟨Call.close fd, Ret.ok v, some m2⟩] m2

/-- How lines 56-86 end on a file of mode `m`: the value returned, the calls
made, the mode left. -/
inductive Secured (clear : Bool) (m : Nat) : Option Int → List Event → Nat → Prop
  | insecure : m &&& 0o777 ≠ 0 → Secured clear m (some 6) [] m
  | locked (e : Nat) : m &&& 0o777 = 0 →
      Secured clear m (some 7) [⟨Call.chmod 0o200, Ret.err e, some m⟩] m
  | unopened (v e : Nat) (rm : Ret) (m2 : Nat) : m &&& 0o777 = 0 →
      Restored (m / 4096 * 4096 + 0o200 % 4096) rm m2 →
      Secured clear m (some 8)
        [⟨Call.chmod 0o200, Ret.ok v, some (m / 4096 * 4096 + 0o200 % 4096)⟩,
          ⟨Call.open ⟨false, false, clear, !clear⟩ 0, Ret.err e,
            some (m / 4096 * 4096 + 0o200 % 4096)⟩,
          ⟨Call.chmod 0, rm, some m2⟩] m2
  | opened (v fd : Nat) (evs tail : List Event) (m2 : Nat) (fatal : Bool) (code : Option Int) :
      m &&& 0o777 = 0 →
      (∀ e ∈ evs, e.call.isWrite = true ∧ e.mode = some (m / 4096 * 4096 + 0o200 % 4096)) →
      ((∃ e ∈ evs, e.fatalWrite = true) ↔ fatal = true) →
      Finish fd (m / 4096 * 4096 + 0o200 % 4096) fatal code tail m2 →
      Secured clear m code
        ([⟨Call.chmod 0o200, Ret.ok v, some (m / 4096 * 4096 + 0o200 % 4096)⟩,
          ⟨Call.open ⟨false, false, clear, !clear⟩ 0, Ret.ok fd,
            some (m / 4096 * 4096 + 0o200 % 4096)⟩] ++ evs ++ tail) m2

/-- How `main` ends when path and message are given and the file starts as
`file0`: the value returned, the calls made, the mode left (`none`: no file). -/
inductive Ran (file0 : Option File) (clear : Bool) :
    Option Int → List Event → Option Nat → Prop
  | statFailed (e : Nat) : e ≠ ENOENT →
      Ran file0 clear (some 2) [⟨Call.stat, Ret.err e, file0.map File.mode⟩]
        (file0.map File.mode)
  | createFailed (e : Nat) :
      Ran file0 clear (some 3)
        [⟨Call.stat, Ret.err ENOENT, file0.map File.mode⟩,
          ⟨Call.open ⟨true, true, false, false⟩ 0, Ret.err e, file0.map File.mode⟩]
        (file0.map File.mode)
  | closeFailed (cfd e : Nat) : file0 = none →
      Ran file0 clear (some 4)
        [⟨Call.stat, Ret.err ENOENT, none⟩,
          ⟨Call.open ⟨true, true, false, false⟩ 0, Ret.ok cfd, some S_IFREG⟩,
          ⟨Call.close cfd, Ret.err e, some S_IFREG⟩]
        (some S_IFREG)
  | restatFailed (cfd v e : Nat) : file0 = none →
      Ran file0 clear (some 5)
        [⟨Call.stat, Ret.err ENOENT, none⟩,
          ⟨Call.open ⟨true, true, false, false⟩ 0, Ret.ok cfd, some S_IFREG⟩,
          ⟨Call.close cfd, Ret.ok v, some S_IFREG⟩,
          ⟨Call.stat, Ret.err e, some S_IFREG⟩]
        (some S_IFREG)
  | existing (f : File) (code : Option Int) (rest : List Event) (m2 : Nat) :
      file0 = some f → Secured clear f.mode code rest m2 →
      Ran file0 clear code (⟨Call.stat, Ret.ok f.mode, some f.mode⟩ :: rest) (some m2)
  | created (cfd v : Nat) (code : Option Int) (rest : List Event) (m2 : Nat) :
      file0 = none → Secured clear S_IFREG code rest m2 →
      Ran file0 clear code
        ([⟨Call.stat, Ret.err ENOENT, none⟩,
          ⟨Call.open ⟨true, true, false, false⟩ 0, Ret.ok cfd, some S_IFREG⟩,
          ⟨Call.close cfd, Ret.ok v, some S_IFREG⟩,
          ⟨Call.stat, Ret.ok S_IFREG, some S_IFREG⟩] ++ rest) (some m2)

/-- The arguments that are not the flag, in order. -/
def nonFlags (args : List String) : List String :=
  args.filter (fun a => a != "-c")

/-- An environment in which every write is interrupted. -/
def stuckEnv : Env :=
  { fault := fun _ c => if c.isWrite then some EINTR else none
    accept := fun _ count => count }

/-- An environment in which the only call that fails is a `chmod` to 0 (with
`EPERM`); writes accept every byte offered. -/
def stickyEnv : Env :=
  { fault := fun _ c => match c with
      | Call.chmod perm => if perm = 0 then some 1 else none
      | _ => none
    accept := fun _ count => count }

/-- A run whose close fails after a restoring `chmod` that failed too. -/
def brokenEnv : Env :=
  { fault := fun _ c => match c with
      | Call.chmod perm => if perm = 0 then some 1 else none
      | Call.close _ => some 5
      | _ => none
    accept := fun _ count => count }

/-! ## The loop of `write_all` -/

theorem slice_split (s : List Char) (i k m : Nat) (h : k ≤ m) :
    (s.drop i).take k ++ (s.drop (i + k)).take (m - k) = (s.drop i).take m := by
  have e : m = k + (m - k) := by omega
  conv_rhs => rw [e, List.take_add]
  simp [List.drop_drop, Nat.add_comm]

theorem LoopPost.stop (env : Env) (fd : Nat) (s : List Char) (n i : Nat) (w : World)
    (hi : ¬ i < n) : LoopPost env fd s n i w (some 0, w) [] := by
  simp [LoopPost, acceptedBytes, acceptedCount, WritesFrom]
  intro _ _ h
  have : n - i = 0 := by omega
  simp [this]
  omega

theorem LoopPost.out_of_fuel (env : Env) (fd : Nat) (s : List Char) (n i : Nat) (w : World) :
    LoopPost env fd s n i w (none, w) [] := by
  simp [LoopPost, acceptedBytes, acceptedCount, WritesFrom]

theorem LoopPost.interrupted (env : Env) (fd : Nat) (s : List Char) (n i : Nat) (w : World)
    (res : Option Int × World) (evs : List Event) (hi : i < n)
    (h : LoopPost env fd s n i
      (w.reply (Call.write fd (s.drop i) (n - i)) (Ret.err EINTR) w.file w.fds).2 res evs) :
    LoopPost env fd s n i w res
      (⟨Call.write fd (s.drop i) (n - i), Ret.err EINTR, w.file.map File.mode⟩ :: evs) := by
  simp only [LoopPost, World.reply] at h ⊢
  obtain ⟨h1, h2, h3, h4, h5, h6, h7, h8, h9, h10⟩ := h
  refine ⟨by simp [h1], ?_, h3, h4, by simp [h5]; omega, ?_, h7, ?_, ?_, ?_⟩
  · simpa [acceptedBytes, Event.bytes] using h2
  · intro e he
    rcases List.mem_cons.1 he with rfl | he
    · simp [Call.isWrite]
    · exact h6 e he
  · rw [h8]
    simp [Event.fatalWrite]
  · intro hg hfd hfile e he
    rcases List.mem_cons.1 he with rfl | he
    · simp [Event.fatalWrite]
    · exact h9 hg hfd hfile e he
  · intro hwf hsz hin
    obtain ⟨a1, a2, a3, a4, a5⟩ := h10 hwf hsz hin
    refine ⟨?_, ?_, ?_, ?_, ?_⟩
    · simp [WritesFrom, hi, a1]
    · simpa [acceptedCount, Event.taken] using a2
    · simpa [acceptedCount, Event.taken, Event.okWrite] using a3
    · simpa [acceptedCount, Event.taken, acceptedBytes, Event.bytes] using a4
    · simpa [acceptedCount, Event.taken, Event.fatalWrite] using a5

theorem LoopPost.failed (env : Env) (fd : Nat) (s : List Char) (n i : Nat) (w : World)
    (e : Nat) (hi : i < n) (he : e ≠ EINTR)
    (hc : env.fault w.clock (Call.write fd (s.drop i) (n - i)) = some e ∨
      (env.fault w.clock (Call.write fd (s.drop i) (n - i)) = none ∧
        (fd ∉ w.fds ∨ w.file = none))) :
    LoopPost env fd s n i w
      (some (-1), (w.reply (Call.write fd (s.drop i) (n - i)) (Ret.err e) w.file w.fds).2)
      [⟨Call.write fd (s.drop i) (n - i), Ret.err e, w.file.map File.mode⟩] := by
  simp only [LoopPost, World.reply]
  refine ⟨trivial, ?_, trivial, trivial, by simp, ?_, by simp, ?_, ?_, ?_⟩
  · cases w.file <;> simp [acceptedBytes, Event.bytes]
  · simp [Call.isWrite]
  · simp [Event.fatalWrite, he]
  · intro hg hfd hfile
    rcases hc with hc | ⟨_, hc | hc⟩
    · rcases hg w.clock (Call.write fd (s.drop i) (n - i)) with h | ⟨_, h⟩
      · rw [h] at hc
        cases hc
      · rw [h] at hc
        exact absurd (Option.some.inj hc).symm he
    · exact absurd hfd hc
    · simp [hc] at hfile
  · intro _ _ hin
    simp [WritesFrom, hi, he, acceptedCount, Event.taken, Event.okWrite, Event.fatalWrite]
    exact hin

theorem LoopPost.advanced (env : Env) (fd : Nat) (s : List Char) (n i : Nat) (w : World)
    (res : Option Int × World) (evs : List Event) (f : File) (hi : i < n)
    (hfd : fd ∈ w.fds) (hfile : w.file = some f)
    (h : LoopPost env fd s n ((i + env.accept w.clock (n - i)) % SIZE_MOD)
      (w.reply (Call.write fd (s.drop i) (n - i)) (Ret.ok (env.accept w.clock (n - i)))
        (some ⟨f.mode, f.content ++ (s.drop i).take (env.accept w.clock (n - i))⟩) w.fds).2
      res evs) :
    LoopPost env fd s n i w res
      (⟨Call.write fd (s.drop i) (n - i), Ret.ok (env.accept w.clock (n - i)),
        some f.mode⟩ :: evs) := by
  simp only [LoopPost, World.reply] at h ⊢
  obtain ⟨h1, h2, h3, h4, h5, h6, h7, h8, h9, h10⟩ := h
  refine ⟨by simp [h1], ?_, h3, h4, by simp [h5]; omega, ?_, h7, ?_, ?_, ?_⟩
  · simpa [acceptedBytes, Event.bytes, hfile] using h2
  · intro e he
    rcases List.mem_cons.1 he with rfl | he
    · simp [Call.isWrite, hfile]
    · simpa [hfile] using h6 e he
  · rw [h8]
    simp [Event.fatalWrite]
  · intro hg _ _ e he
    rcases List.mem_cons.1 he with rfl | he
    · simp [Event.fatalWrite]
    · exact h9 hg hfd (by simp) e he
  · intro hwf hsz hin
    obtain ⟨k1, k2⟩ := hwf w.clock (n - i) (by omega)
    have hmod : (i + env.accept w.clock (n - i)) % SIZE_MOD = i + env.accept w.clock (n - i) :=
      Nat.mod_eq_of_lt (by omega)
    rw [hmod] at h10
    obtain ⟨a1, a2, a3, a4, a5⟩ := h10 hwf hsz (by omega)
    refine ⟨?_, ?_, ?_, ?_, ?_⟩
    · simp [WritesFrom, hi, a1]
    · simp only [acceptedCount, Event.taken]
      omega
    · simp only [acceptedCount, Event.taken, Event.okWrite, List.filter_cons, if_true,
        List.length_cons]
      omega
    · intro hr
      obtain ⟨b1, b2⟩ := a4 hr
      refine ⟨by simp only [acceptedCount, Event.taken]; omega, ?_⟩
      simp only [acceptedBytes, Event.bytes, b2]
      have := slice_split s i (env.accept w.clock (n - i)) (n - i) k2
      rw [← this]
      congr 2
      omega
    · intro hx
      have hx2 : ∃ e ∈ evs, e.fatalWrite = true := by
        simpa [Event.fatalWrite] using hx
      have := a5 hx2
      simp only [acceptedCount, Event.taken]
      omega

theorem loop_post (env : Env) (fd : Nat) (s : List Char) (n : Nat) :
    ∀ (fuel i : Nat) (w : World),
      ∃ evs, LoopPost env fd s n i w (write_all_loop env fd s n fuel i w) evs := by
  intro fuel
  induction fuel with
  | zero =>
    intro i w
    exact ⟨[], LoopPost.out_of_fuel env fd s n i w⟩
  | succ fuel ih =>
    intro i w
    by_cases hi : i < n
    · cases hf : env.fault w.clock (Call.write fd (s.drop i) (n - i)) with
      | some e =>
        by_cases he : e = EINTR
        · subst he
          obtain ⟨evs, h⟩ :=
            ih i (w.reply (Call.write fd (s.drop i) (n - i)) (Ret.err EINTR) w.file w.fds).2
          refine ⟨⟨Call.write fd (s.drop i) (n - i), Ret.err EINTR, w.file.map File.mode⟩ :: evs,
            ?_⟩
          simp only [write_all_loop, hi, sys_write, hf, if_true, World.reply]
          simpa only [World.reply] using LoopPost.interrupted env fd s n i w _ evs hi h
        · refine ⟨[⟨Call.write fd (s.drop i) (n - i), Ret.err e, w.file.map File.mode⟩], ?_⟩
          simp only [write_all_loop, hi, sys_write, hf, if_true, he, if_false, World.reply]
          simpa only [World.reply] using LoopPost.failed env fd s n i w e hi he (Or.inl hf)
      | none =>
        by_cases hfd : fd ∈ w.fds
        · cases hfile : w.file with
          | none =>
            refine ⟨[⟨Call.write fd (s.drop i) (n - i), Ret.err EBADF, none⟩], ?_⟩
            simp only [write_all_loop, hi, sys_write, hf, if_true, hfd, hfile, World.reply]
            have := LoopPost.failed env fd s n i w EBADF hi (by decide)
              (Or.inr ⟨hf, Or.inr hfile⟩)
            simpa [hfile] using this
          | some f =>
            obtain ⟨evs, h⟩ := ih ((i + env.accept w.clock (n - i)) % SIZE_MOD)
              (w.reply (Call.write fd (s.drop i) (n - i)) (Ret.ok (env.accept w.clock (n - i)))
                (some ⟨f.mode, f.content ++ (s.drop i).take (env.accept w.clock (n - i))⟩)
                w.fds).2
            refine ⟨⟨Call.write fd (s.drop i) (n - i), Ret.ok (env.accept w.clock (n - i)),
              some f.mode⟩ :: evs, ?_⟩
            simp only [write_all_loop, hi, sys_write, hf, if_true, hfd, hfile, World.reply]
            simpa only [World.reply] using LoopPost.advanced env fd s n i w _ evs f hi hfd hfile h
        · refine ⟨[⟨Call.write fd (s.drop i) (n - i), Ret.err EBADF, w.file.map File.mode⟩], ?_⟩
          simp only [write_all_loop, hi, sys_write, hf, if_true, hfd, if_false, World.reply]
          simpa only [World.reply] using LoopPost.failed env fd s n i w EBADF hi (by decide)
            (Or.inr ⟨hf, Or.inl hfd⟩)
    · refine ⟨[], ?_⟩
      simp only [write_all_loop, hi, if_false]
      exact LoopPost.stop env fd s n i w hi

theorem loop_returns (env : Env) (fd : Nat) (s : List Char) (n b : Nat)
    (hwf : env.WellFormed) (hsz : n < SIZE_MOD) (hb : env.CalmFrom b) :
    ∀ (fuel i : Nat) (w : World), i ≤ n → (n - i) + (b - w.clock) < fuel →
      (write_all_loop env fd s n fuel i w).1 ≠ none := by
  intro fuel
  induction fuel with
  | zero => intro i w _ h; omega
  | succ fuel ih =>
    intro i w hin hfuel
    by_cases hi : i < n
    · obtain ⟨k1, k2⟩ := hwf w.clock (n - i) (by omega)
      have hmod : (i + env.accept w.clock (n - i)) % SIZE_MOD = i + env.accept w.clock (n - i) :=
        Nat.mod_eq_of_lt (by omega)
      cases hf : env.fault w.clock (Call.write fd (s.drop i) (n - i)) with
      | some e =>
        by_cases he : e = EINTR
        · subst he
          have hlt : w.clock < b := by
            by_contra hge
            exact hb w.clock _ (by omega) hf
          simp only [write_all_loop, hi, sys_write, hf, if_true, World.reply]
          exact ih i _ hin (by simp only []; omega)
        · simp [write_all_loop, hi, sys_write, hf, he, World.reply]
      | none =>
        by_cases hfd : fd ∈ w.fds
        · cases hfile : w.file with
          | none => simp [write_all_loop, hi, sys_write, hf, hfd, hfile, World.reply]
          | some f =>
            simp only [write_all_loop, hi, sys_write, hf, if_true, hfd, hfile, World.reply, hmod]
            exact ih _ _ (by omega) (by simp only []; omega)
        · simp [write_all_loop, hi, sys_write, hf, hfd, World.reply]
    · simp [write_all_loop, hi]

/-- More fuel does not change a result that has been reached. -/
theorem loop_fuel_mono (env : Env) (fd : Nat) (s : List Char) (n : Nat) :
    ∀ (fuel i : Nat) (w : World), (write_all_loop env fd s n fuel i w).1 ≠ none →
      ∀ more, write_all_loop env fd s n (fuel + more) i w = write_all_loop env fd s n fuel i w := by
  intro fuel
  induction fuel with
  | zero => intro i w h; simp [write_all_loop] at h
  | succ fuel ih =>
    intro i w h more
    have e : fuel + 1 + more = (fuel + more) + 1 := by omega
    rw [e]
    by_cases hi : i < n
    · simp only [write_all_loop, hi, if_true] at h ⊢
      rcases hsw : sys_write env w fd (s.drop i) (n - i) with ⟨r, w1⟩
      rw [hsw] at h
      cases r with
      | ok k => exact ih _ _ h more
      | err e =>
        by_cases he : e = EINTR
        · simp only [he, if_true] at h ⊢
          exact ih _ _ h more
        · simp only [he, if_false]
    · simp [write_all_loop, hi]

/-- The loop need not end: when every write is interrupted, no amount of fuel
lets `write_all` return for a buffer that is not empty. -/
theorem write_all_can_stall (fd : Nat) (s : List Char) (n : Nat) (hn : 0 < n) :
    ∀ (fuel : Nat) (w : World), (write_all_loop stuckEnv fd s n fuel 0 w).1 = none := by
  intro fuel
  induction fuel with
  | zero => intro w; rfl
  | succ fuel ih =>
    intro w
    simp only [write_all_loop, hn, if_true, sys_write, stuckEnv, Call.isWrite, World.reply]
    exact ih _

theorem writesFrom_calls (fd : Nat) (s : List Char) (n : Nat) :
    ∀ (evs : List Event) (i : Nat), WritesFrom fd s n i evs →
      ∀ e ∈ evs, ∃ j, j < n ∧ e.call = Call.write fd (s.drop j) (n - j) := by
  intro evs
  induction evs with
  | nil => intro i _ e he; cases he
  | cons a rest ih =>
    intro i h e he
    obtain ⟨h1, h2, h3⟩ := h
    rcases List.mem_cons.1 he with rfl | he
    · exact ⟨i, h1, h2⟩
    · cases hr : a.ret with
      | ok k =>
        rw [hr] at h3
        exact ih _ h3 e he
      | err errno =>
        rw [hr] at h3
        by_cases hx : errno = EINTR
        · simp only [hx, if_true] at h3
          exact ih _ h3 e he
        · simp only [hx, if_false] at h3
          rw [h3] at he
          cases he

theorem writesFrom_at (fd : Nat) (s : List Char) (n : Nat) (pre : List Event) :
    ∀ (i : Nat) (e : Event) (post : List Event), WritesFrom fd s n i (pre ++ e :: post) →
      e.call = Call.write fd (s.drop (i + acceptedCount pre)) (n - (i + acceptedCount pre)) ∧
      ∀ e2 rest, post = e2 :: rest → e.ret = Ret.err EINTR → e2.call = e.call := by
  induction pre with
  | nil =>
    intro i e post h
    obtain ⟨_, h2, h3⟩ := h
    refine ⟨by simpa [acceptedCount] using h2, ?_⟩
    intro e2 rest hp hr
    subst hp
    rw [hr] at h3
    simp only [if_true] at h3
    rw [h2]
    exact h3.2.1
  | cons a pre ih =>
    intro i e post h
    obtain ⟨_, h2, h3⟩ := h
    cases hr : a.ret with
    | ok k =>
      rw [hr] at h3
      have := ih (i + k) e post h3
      have ht : a.taken = k := by simp [Event.taken, h2, hr]
      simpa [acceptedCount, ht, Nat.add_assoc] using this
    | err errno =>
      rw [hr] at h3
      have ht : a.taken = 0 := by simp [Event.taken, h2, hr]
      by_cases hx : errno = EINTR
      · simp only [hx, if_true] at h3
        have := ih i e post h3
        simpa [acceptedCount, ht] using this
      · simp only [hx, if_false] at h3
        simp at h3

theorem write_all_returns (env : Env) (fd : Nat) (s : List Char) (n b fuel : Nat) (w : World)
    (hwf : env.WellFormed) (hsz : n < SIZE_MOD) (hb : env.CalmFrom b) (hfuel : n + b < fuel) :
    (write_all fuel env w fd s n).1 ≠ none :=
  loop_returns env fd s n b hwf hsz hb fuel 0 w (Nat.zero_le n) (by omega)

theorem write_all_gentle (env : Env) (fd : Nat) (s : List Char) (fuel : Nat) (w : World)
    (f : File) (hg : env.Gentle) (hwf : env.WellFormed) (hsz : s.length < SIZE_MOD)
    (hfd : fd ∈ w.fds) (hfile : w.file = some f) :
    (write_all fuel env w fd s s.length).1 = none ∨
      ((write_all fuel env w fd s s.length).1 = some 0 ∧
        (write_all fuel env w fd s s.length).2.file = some ⟨f.mode, f.content ++ s⟩ ∧
        (write_all fuel env w fd s s.length).2.fds = w.fds) := by
  obtain ⟨evs, h⟩ := loop_post env fd s s.length fuel 0 w
  unfold write_all
  generalize write_all_loop env fd s s.length fuel 0 w = res at h
  obtain ⟨_, h2, h3, _, _, _, h7, h8, h9, h10⟩ := h
  obtain ⟨_, _, _, a4, _⟩ := h10 hwf hsz (Nat.zero_le _)
  rcases h7 with h7 | h7 | h7
  · exact Or.inl h7
  · obtain ⟨_, b2⟩ := a4 h7
    refine Or.inr ⟨h7, ?_, h3⟩
    rw [h2, b2, hfile]
    simp
  · obtain ⟨e, he, hfatal⟩ := h8.1 h7
    have := h9 hg hfd (by simp [hfile]) e he
    rw [this] at hfatal
    cases hfatal

/-! ## Mode bits -/

theorem allocFd_nil : allocFd [] = 3 := by decide

theorem perm_bits_after_chmod (q p : Nat) : (q * 4096 + p % 4096) &&& 0o777 = p % 512 := by
  have h : (0o777 : Nat) = 2 ^ 9 - 1 := by norm_num
  rw [h, Nat.and_pow_two_sub_one_eq_mod]
  omega

theorem owner_write_after_chmod (q : Nat) : (q * 4096 + 0o200 % 4096) &&& 0o200 ≠ 0 := by
  intro h
  have h2 : ((q * 4096 + 0o200 % 4096) &&& 0o200).testBit 7 = true := by
    rw [Nat.testBit_and, Nat.testBit_to_div_mod, Nat.testBit_to_div_mod]
    have h3 : (q * 4096 + 0o200 % 4096) / 2 ^ 7 % 2 = 1 := by omega
    have h4 : (0o200 : Nat) / 2 ^ 7 % 2 = 1 := by norm_num
    rw [h3, h4]
    rfl
  rw [h] at h2
  simp at h2

theorem Env.Gentle.calm (env : Env) (hg : env.Gentle) (t : Nat) (c : Call)
    (hc : c.isWrite = false) : env.fault t c = none := by
  rcases hg t c with h | ⟨h, _⟩
  · exact h
  · rw [hc] at h
    cases h

/-! ## The guarded write of `main` -/

theorem main_write_gentle (fuel : Nat) (env : Env) (msg : String) (w : World) (fd : Nat)
    (f : File) (hg : env.Gentle) (hwf : env.WellFormed) (hsz : msg.length < SIZE_MOD)
    (hfile : w.file = some f) (hfd : fd ∈ w.fds) :
    (main_write fuel env msg w fd).1 = none ∨
      ((main_write fuel env msg w fd).1 = some 0 ∧
        (main_write fuel env msg w fd).2.file =
          some ⟨f.mode / 4096 * 4096, f.content ++ msg.toList ++ ['\n']⟩) := by
  have c1 := hg.calm env
  have g1 := write_all_gentle env fd msg.toList fuel w f hg hwf hsz hfd hfile
  unfold main_write
  rw [show msg.length = msg.toList.length from rfl]
  rcases hw1 : write_all fuel env w fd msg.toList msg.toList.length with ⟨r1, w3⟩
  rw [hw1] at g1
  rcases g1 with g1 | ⟨g1, hf3, hd3⟩
  · simp only [] at g1
    subst g1
    exact Or.inl rfl
  · simp only [] at g1 hf3 hd3
    subst g1
    have g2 := write_all_gentle env fd ['\n'] fuel w3 _ hg hwf (by decide) (hd3 ▸ hfd) hf3
    simp only [List.length_singleton] at g2
    simp only [lt_self_iff_false, if_false]
    rcases hw2 : write_all fuel env w3 fd ['\n'] 1 with ⟨r2, w4⟩
    rw [hw2] at g2
    rcases g2 with g2 | ⟨g2, hf4, hd4⟩
    · simp only [] at g2
      subst g2
      exact Or.inl (by simp)
    · simp only [] at g2 hf4 hd4
      subst g2
      have hfd4 : fd ∈ w4.fds := by rw [hd4, hd3]; exact hfd
      refine Or.inr ?_
      simp only [lt_self_iff_false, if_false]
      simp [sys_chmod, sys_close, c1 _ _ (rfl : (Call.chmod _).isWrite = false),
        c1 _ _ (rfl : (Call.close _).isWrite = false), hf4, World.reply, hfd4]

theorem main_secured_gentle (fuel : Nat) (env : Env) (clear : Bool) (path msg : String)
    (w : World) (f : File) (hg : env.Gentle) (hwf : env.WellFormed)
    (hsz : msg.length < SIZE_MOD) (hfile : w.file = some f)
    (hmode : f.mode &&& 0o777 = 0) :
    (main_secured fuel env clear path msg f.mode w).1 = none ∨
      ((main_secured fuel env clear path msg f.mode w).1 = some 0 ∧
        (main_secured fuel env clear path msg f.mode w).2.file =
          some ⟨f.mode / 4096 * 4096,
            (if clear then [] else f.content) ++ msg.toList ++ ['\n']⟩) := by
  have c1 := hg.calm env
  have ow := owner_write_after_chmod (f.mode / 4096)
  simp only [main_secured, hmode, ne_eq, not_true_eq_false, if_false, sys_chmod, sys_open,
    c1 _ _ (rfl : (Call.chmod _).isWrite = false),
    c1 _ _ (rfl : (Call.open _ _).isWrite = false), hfile, World.reply, Bool.and_self,
    Bool.false_eq_true, ow]
  have := main_write_gentle fuel env msg
    { file := some ⟨f.mode / 4096 * 4096 + 0o200 % 4096, if clear then [] else f.content⟩,
      fds := allocFd w.fds :: w.fds, clock := w.clock + 1 + 1,
      trace := w.trace ++ [⟨Call.chmod 0o200, Ret.ok 0,
          some (f.mode / 4096 * 4096 + 0o200 % 4096)⟩] ++
        [⟨Call.open ⟨false, false, clear, !clear⟩ 0, Ret.ok (allocFd w.fds),
          some (f.mode / 4096 * 4096 + 0o200 % 4096)⟩],
      stderr := w.stderr } (allocFd w.fds) _ hg hwf hsz rfl (by simp)
  have e : (f.mode / 4096 * 4096 + 0o200 % 4096) / 4096 * 4096 = f.mode / 4096 * 4096 := by
    omega
  simp only [e] at this
  simpa using this

/-! ## What each system call leaves behind -/

theorem sys_stat_spec (env : Env) (w : World) :
    ∃ r, sys_stat env w = (r, w.after Call.stat r w.file w.fds) ∧
      ((∃ e, r = Ret.err e) ∨ (∃ f, r = Ret.ok f.mode ∧ w.file = some f)) := by
  cases hf : env.fault w.clock Call.stat with
  | some e =>
    exact ⟨Ret.err e, by simp [sys_stat, hf, World.reply, World.after], Or.inl ⟨e, rfl⟩⟩
  | none =>
    cases hfile : w.file with
    | none =>
      exact ⟨Ret.err ENOENT, by simp [sys_stat, hf, World.reply, World.after, hfile],
        Or.inl ⟨_, rfl⟩⟩
    | some f =>
      exact ⟨Ret.ok f.mode, by simp [sys_stat, hf, World.reply, World.after, hfile],
        Or.inr ⟨f, rfl, rfl⟩⟩

theorem sys_chmod_spec (env : Env) (w : World) (p : Nat) :
    ∃ r F, sys_chmod env w p = (r, w.after (Call.chmod p) r F w.fds) ∧
      ((∃ e, r = Ret.err e ∧ F = w.file) ∨
        (∃ v f, r = Ret.ok v ∧ w.file = some f ∧
          F = some ⟨f.mode / 4096 * 4096 + p % 4096, f.content⟩)) := by
  cases hf : env.fault w.clock (Call.chmod p) with
  | some e =>
    exact ⟨Ret.err e, w.file, by simp [sys_chmod, hf, World.reply, World.after],
      Or.inl ⟨e, rfl, rfl⟩⟩
  | none =>
    cases hfile : w.file with
    | none =>
      exact ⟨Ret.err ENOENT, none, by simp [sys_chmod, hf, World.reply, World.after, hfile],
        Or.inl ⟨_, rfl, rfl⟩⟩
    | some f =>
      exact ⟨Ret.ok 0, some ⟨f.mode / 4096 * 4096 + p % 4096, f.content⟩,
        by simp [sys_chmod, hf, World.reply, World.after, hfile], Or.inr ⟨0, f, rfl, rfl, rfl⟩⟩

theorem sys_close_spec (env : Env) (w : World) (fd : Nat) :
    ∃ r fds, sys_close env w fd = (r, w.after (Call.close fd) r w.file fds) := by
  cases hf : env.fault w.clock (Call.close fd) with
  | some e =>
    exact ⟨Ret.err e, w.fds.erase fd, by simp [sys_close, hf, World.reply, World.after]⟩
  | none =>
    by_cases h : fd ∈ w.fds
    · exact ⟨Ret.ok 0, w.fds.erase fd, by simp [sys_close, hf, World.reply, World.after, h]⟩
    · exact ⟨Ret.err EBADF, w.fds, by simp [sys_close, hf, World.reply, World.after, h]⟩

theorem sys_open_spec (env : Env) (w : World) (fl : OFlags) (p : Nat) :
    ∃ r F fds, sys_open env w fl p = (r, w.after (Call.open fl p) r F fds) ∧
      ((∃ e, r = Ret.err e ∧ F = w.file ∧ fds = w.fds) ∨
        (∃ fd, r = Ret.ok fd ∧ fds = fd :: w.fds ∧
          ((w.file = none ∧ F = some ⟨S_IFREG + p % 4096, []⟩) ∨
            (∃ f c, w.file = some f ∧ (fl.creat && fl.excl) = false ∧ F = some ⟨f.mode, c⟩)))) := by
  cases hf : env.fault w.clock (Call.open fl p) with
  | some e =>
    exact ⟨Ret.err e, w.file, w.fds, by simp [sys_open, hf, World.reply, World.after],
      Or.inl ⟨e, rfl, rfl, rfl⟩⟩
  | none =>
    cases hfile : w.file with
    | none =>
      by_cases hc : fl.creat = true
      · exact ⟨Ret.ok (allocFd w.fds), some ⟨S_IFREG + p % 4096, []⟩, allocFd w.fds :: w.fds,
          by simp [sys_open, hf, World.reply, World.after, hc, hfile],
          Or.inr ⟨_, rfl, rfl, Or.inl ⟨rfl, rfl⟩⟩⟩
      · exact ⟨Ret.err ENOENT, none, w.fds,
          by simp [sys_open, hf, World.reply, World.after, hc, hfile], Or.inl ⟨_, rfl, rfl, rfl⟩⟩
    | some f =>
      by_cases hx : (fl.creat && fl.excl) = true
      · exact ⟨Ret.err EEXIST, some f, w.fds,
          by simp only [sys_open, hf, World.reply, World.after, hx, hfile, if_true],
          Or.inl ⟨_, rfl, rfl, rfl⟩⟩
      · by_cases hm : f.mode &&& 0o200 = 0
        · exact ⟨Ret.err EACCES, some f, w.fds,
            by simp only [sys_open, hf, World.reply, World.after, hx, hm, hfile, if_true,
              if_false, Bool.false_eq_true],
            Or.inl ⟨_, rfl, rfl, rfl⟩⟩
        · exact ⟨Ret.ok (allocFd w.fds), some ⟨f.mode, if fl.trunc then [] else f.content⟩,
            allocFd w.fds :: w.fds,
            by simp only [sys_open, hf, World.reply, World.after, hx, hm, hfile, if_false,
              Bool.false_eq_true],
            Or.inr ⟨_, rfl, rfl, Or.inr ⟨f, _, rfl, by simpa using hx, rfl⟩⟩⟩

/-! ## The shape of a run -/

theorem write_all_shape (fuel : Nat) (env : Env) (w : World) (fd : Nat) (s : List Char)
    (n : Nat) (f : File) (hfile : w.file = some f) :
    ∃ evs r w1, write_all fuel env w fd s n = (r, w1) ∧ w1.trace = w.trace ++ evs ∧
      (∃ c, w1.file = some ⟨f.mode, c⟩) ∧
      (∀ e ∈ evs, e.call.isWrite = true ∧ e.mode = some f.mode) ∧
      (r = none ∨ r = some 0 ∨ r = some (-1)) ∧
      (r = some (-1) ↔ ∃ e ∈ evs, e.fatalWrite = true) := by
  obtain ⟨evs, h⟩ := loop_post env fd s n fuel 0 w
  unfold write_all
  rcases hres : write_all_loop env fd s n fuel 0 w with ⟨r, w1⟩
  rw [hres] at h
  obtain ⟨h1, h2, _, _, _, h6, h7, h8, _, _⟩ := h
  refine ⟨evs, r, w1, rfl, h1, ⟨_, by rw [h2, hfile]; rfl⟩, ?_, h7, h8⟩
  intro e he
  simpa [hfile] using h6 e he

theorem main_write_failed_shape (env : Env) (w : World) (fd : Nat) (f : File)
    (hfile : w.file = some f) :
    ∃ rc rm m2 w1, main_write_failed env w fd = (some 9, w1) ∧
      w1.trace = w.trace ++ [⟨Call.close fd, rc, some f.mode⟩, ⟨Call.chmod 0, rm, some m2⟩] ∧
      w1.file.map File.mode = some m2 ∧ Restored f.mode rm m2 := by
  obtain ⟨rc, fds, hc⟩ := sys_close_spec env (w.perror "write") fd
  obtain ⟨rm, F, hm, hcase⟩ :=
    sys_chmod_spec env ((w.perror "write").after (Call.close fd) rc (w.perror "write").file fds) 0
  simp only [main_write_failed, hc, hm]
  rcases hcase with ⟨e, rfl, rfl⟩ | ⟨v, g, rfl, hg, rfl⟩
  · exact ⟨rc, Ret.err e, f.mode, _, rfl, by simp [World.after, World.say, World.perror, hfile],
      by simp [World.after, World.say, World.perror, hfile], Or.inl ⟨e, rfl, rfl⟩⟩
  · have : g = f := by
      simp only [World.after, World.say, World.perror, hfile] at hg
      exact (Option.some.inj hg).symm
    subst this
    exact ⟨rc, Ret.ok v, _, _, rfl, by simp [World.after, World.say, World.perror, hfile],
      by simp [World.after], Or.inr ⟨v, rfl, rfl⟩⟩

theorem no_fatal_append (a b : List Event) (ha : ∀ e ∈ a, e.fatalWrite = false)
    (hb : ∀ e ∈ b, e.fatalWrite = false) : ∀ e ∈ a ++ b, e.fatalWrite = false := by
  intro e he
  rcases List.mem_append.1 he with h | h
  · exact ha e h
  · exact hb e h

theorem no_fatal_of_not (evs : List Event) (h : ¬ ∃ e ∈ evs, e.fatalWrite = true) :
    ∀ e ∈ evs, e.fatalWrite = false := by
  intro e he
  cases hx : e.fatalWrite with
  | false => rfl
  | true => exact absurd ⟨e, he, hx⟩ h

theorem main_write_shape (fuel : Nat) (env : Env) (msg : String) (w : World) (fd : Nat)
    (f : File) (hfile : w.file = some f) :
    ∃ evs tail m2 fatal,
      (main_write fuel env msg w fd).2.trace = w.trace ++ evs ++ tail ∧
      (∀ e ∈ evs, e.call.isWrite = true ∧ e.mode = some f.mode) ∧
      ((∃ e ∈ evs, e.fatalWrite = true) ↔ fatal = true) ∧
      (main_write fuel env msg w fd).2.file.map File.mode = some m2 ∧
      Finish fd f.mode fatal (main_write fuel env msg w fd).1 tail m2 := by
  obtain ⟨evs1, r1, w3, h1, t1, ⟨c1, f1⟩, a1, k1, x1⟩ :=
    write_all_shape fuel env w fd msg.toList msg.length f hfile
  unfold main_write
  rw [h1]
  rcases k1 with rfl | rfl | rfl
  · refine ⟨evs1, [], f.mode, false, by simp [t1], a1, ?_, by simp [f1], Finish.stalled⟩
    simpa using x1
  · have n1 : ∀ e ∈ evs1, e.fatalWrite = false := no_fatal_of_not evs1 (by simpa using x1)
    obtain ⟨evs2, r2, w4, h2, t2, ⟨c2, f2⟩, a2, k2, x2⟩ :=
      write_all_shape fuel env w3 fd ['\n'] 1 ⟨f.mode, c1⟩ f1
    simp only [lt_self_iff_false, if_false, h2]
    have a12 : ∀ e ∈ evs1 ++ evs2, e.call.isWrite = true ∧ e.mode = some f.mode := by
      intro e he
      rcases List.mem_append.1 he with h | h
      · exact a1 e h
      · exact a2 e h
    rcases k2 with rfl | rfl | rfl
    · have n2 : ∀ e ∈ evs2, e.fatalWrite = false := no_fatal_of_not evs2 (by simpa using x2)
      refine ⟨evs1 ++ evs2, [], f.mode, false, by simp [t2, t1], a12, ?_, by simp [f2],
        Finish.stalled⟩
      have := no_fatal_append evs1 evs2 n1 n2
      simp only [Bool.false_eq_true, iff_false, not_exists, not_and]
      intro e he hx
      rw [this e he] at hx
      cases hx
    · have n2 : ∀ e ∈ evs2, e.fatalWrite = false := no_fatal_of_not evs2 (by simpa using x2)
      have n12 := no_fatal_append evs1 evs2 n1 n2
      have hfat : (∃ e ∈ evs1 ++ evs2, e.fatalWrite = true) ↔ false = true := by
        simp only [Bool.false_eq_true, iff_false, not_exists, not_and]
        intro e he hx
        rw [n12 e he] at hx
        cases hx
      simp only [lt_self_iff_false, if_false]
      obtain ⟨rm, F, hm, hcase⟩ := sys_chmod_spec env w4 0
      rw [hm]
      rcases hcase with ⟨e, rfl, rfl⟩ | ⟨v, g, rfl, hg, rfl⟩
      · obtain ⟨rc, fds, hc⟩ :=
          sys_close_spec env ((w4.after (Call.chmod 0) (Ret.err e) w4.file w4.fds).perror
            "chmod 000") fd
        simp only [hc]
        cases rc with
        | ok v =>
          exact ⟨evs1 ++ evs2, _, f.mode, false,
            by simp [World.after, World.say, World.perror, t2, t1, f2], a12, hfat,
            by simp [World.after, World.say, World.perror, f2],
            Finish.done (Ret.err e) v f.mode (Or.inl ⟨e, rfl, rfl⟩)⟩
        | err e2 =>
          exact ⟨evs1 ++ evs2, _, f.mode, false,
            by simp [World.after, World.say, World.perror, t2, t1, f2], a12, hfat,
            by simp [World.after, World.say, World.perror, f2],
            Finish.unclosed (Ret.err e) e2 f.mode (Or.inl ⟨e, rfl, rfl⟩)⟩
      · have hgf : g.mode = f.mode := by
          rw [f2] at hg
          rw [← Option.some.inj hg]
        obtain ⟨rc, fds, hc⟩ :=
          sys_close_spec env (w4.after (Call.chmod 0) (Ret.ok v)
            (some ⟨g.mode / 4096 * 4096 + 0 % 4096, g.content⟩) w4.fds) fd
        simp only [hc]
        cases rc with
        | ok v2 =>
          exact ⟨evs1 ++ evs2, _, f.mode / 4096 * 4096 + 0 % 4096, false,
            by simp [World.after, World.say, World.perror, t2, t1, hgf], a12, hfat,
            by simp [World.after, World.say, World.perror, hgf],
            Finish.done (Ret.ok v) v2 _ (Or.inr ⟨v, rfl, rfl⟩)⟩
        | err e2 =>
          exact ⟨evs1 ++ evs2, _, f.mode / 4096 * 4096 + 0 % 4096, false,
            by simp [World.after, World.say, World.perror, t2, t1, hgf], a12, hfat,
            by simp [World.after, World.say, World.perror, hgf],
            Finish.unclosed (Ret.ok v) e2 _ (Or.inr ⟨v, rfl, rfl⟩)⟩
    · obtain ⟨rc, rm, m2, w5, hw, t5, f5, hr⟩ :=
        main_write_failed_shape env w4 fd ⟨f.mode, c2⟩ f2
      have hfat : (∃ e ∈ evs1 ++ evs2, e.fatalWrite = true) ↔ true = true := by
        obtain ⟨e, he, hx⟩ := x2.1 rfl
        simp only [iff_true]
        exact ⟨e, List.mem_append.2 (Or.inr he), hx⟩
      simp only [show ((-1 : Int) < 0) from by decide, if_true, hw]
      exact ⟨evs1 ++ evs2, _, m2, true, by simp [t5, t2, t1], a12, hfat, f5,
        Finish.failed rc rm m2 hr⟩
  · obtain ⟨rc, rm, m2, w5, hw, t5, f5, hr⟩ :=
      main_write_failed_shape env w3 fd ⟨f.mode, c1⟩ f1
    have hfat : (∃ e ∈ evs1, e.fatalWrite = true) ↔ true = true := by
      simp only [iff_true]
      exact x1.1 rfl
    simp only [show ((-1 : Int) < 0) from by decide, if_true, hw]
    exact ⟨evs1, _, m2, true, by simp [t5, t1], a1, hfat, f5, Finish.failed rc rm m2 hr⟩

theorem main_secured_shape (fuel : Nat) (env : Env) (clear : Bool) (path msg : String)
    (w : World) (f : File) (hfile : w.file = some f) :
    ∃ rest m2,
      (main_secured fuel env clear path msg f.mode w).2.trace = w.trace ++ rest ∧
      (main_secured fuel env clear path msg f.mode w).2.file.map File.mode = some m2 ∧
      Secured clear f.mode (main_secured fuel env clear path msg f.mode w).1 rest m2 := by
  unfold main_secured
  by_cases hbits : f.mode &&& 0o777 = 0
  · simp only [hbits, ne_eq, not_true_eq_false, if_false]
    obtain ⟨r, F, hm, hcase⟩ := sys_chmod_spec env w 0o200
    rw [hm]
    rcases hcase with ⟨e, rfl, rfl⟩ | ⟨v, g, rfl, hg, rfl⟩
    · exact ⟨_, f.mode, by simp [World.after, World.say, World.perror, hfile],
        by simp [World.after, World.say, World.perror, hfile], Secured.locked e hbits⟩
    · have hgf : g = f := by
        rw [hfile] at hg
        exact (Option.some.inj hg).symm
      subst hgf
      obtain ⟨ro, F, fds, ho, hcase⟩ := sys_open_spec env
        (w.after (Call.chmod 0o200) (Ret.ok v)
          (some ⟨g.mode / 4096 * 4096 + 0o200 % 4096, g.content⟩) w.fds)
        ⟨false, false, clear, !clear⟩ 0
      simp only [ho]
      rcases hcase with ⟨e, rfl, rfl, rfl⟩ | ⟨fd, rfl, rfl, hF⟩
      · obtain ⟨rm, F, hm2, hcase2⟩ := sys_chmod_spec env
          (((w.after (Call.chmod 0o200) (Ret.ok v)
            (some ⟨g.mode / 4096 * 4096 + 0o200 % 4096, g.content⟩) w.fds).after
            (Call.open ⟨false, false, clear, !clear⟩ 0) (Ret.err e)
            (w.after (Call.chmod 0o200) (Ret.ok v)
              (some ⟨g.mode / 4096 * 4096 + 0o200 % 4096, g.content⟩) w.fds).file
            (w.after (Call.chmod 0o200) (Ret.ok v)
              (some ⟨g.mode / 4096 * 4096 + 0o200 % 4096, g.content⟩) w.fds).fds).perror "open") 0
        simp only [hm2]
        rcases hcase2 with ⟨e2, rfl, rfl⟩ | ⟨v2, g2, rfl, hg2, rfl⟩
        · exact ⟨_, g.mode / 4096 * 4096 + 0o200 % 4096,
            by simp [World.after, World.say, World.perror], by simp [World.after, World.say, World.perror],
            Secured.unopened v e (Ret.err e2) _ hbits (Or.inl ⟨e2, rfl, rfl⟩)⟩
        · have hg3 : g2 = ⟨g.mode / 4096 * 4096 + 0o200 % 4096, g.content⟩ := by
            simp only [World.after, World.say, World.perror] at hg2
            exact (Option.some.inj hg2).symm
          subst hg3
          exact ⟨_, _, by simp [World.after, World.say, World.perror], by simp [World.after, World.say, World.perror],
            Secured.unopened v e (Ret.ok v2) _ hbits (Or.inr ⟨v2, rfl, rfl⟩)⟩
      · have hF2 : ∃ c, F = some ⟨g.mode / 4096 * 4096 + 0o200 % 4096, c⟩ := by
          rcases hF with ⟨h0, _⟩ | ⟨f2, c, h0, _, h1⟩
          · simp [World.after] at h0
          · simp only [World.after] at h0
            rw [← Option.some.inj h0] at h1
            exact ⟨c, h1⟩
        obtain ⟨c, rfl⟩ := hF2
        obtain ⟨evs, tail, m2, fatal, t, a, x, fm, fin⟩ := main_write_shape fuel env msg
          ((w.after (Call.chmod 0o200) (Ret.ok v)
            (some ⟨g.mode / 4096 * 4096 + 0o200 % 4096, g.content⟩) w.fds).after
            (Call.open ⟨false, false, clear, !clear⟩ 0) (Ret.ok fd)
            (some ⟨g.mode / 4096 * 4096 + 0o200 % 4096, c⟩)
            (fd :: (w.after (Call.chmod 0o200) (Ret.ok v)
              (some ⟨g.mode / 4096 * 4096 + 0o200 % 4096, g.content⟩) w.fds).fds))
          fd ⟨g.mode / 4096 * 4096 + 0o200 % 4096, c⟩ rfl
        refine ⟨_, m2, ?_, fm, Secured.opened v fd evs tail m2 fatal _ hbits a x fin⟩
        rw [t]
        simp [World.after]
  · simp only [hbits, ne_eq, not_false_eq_true, if_true]
    exact ⟨[], f.mode, by simp [World.say, World.perror], by simp [World.say, World.perror, hfile], Secured.insecure hbits⟩

theorem main_shape (fuel : Nat) (env : Env) (argv : List String) (file0 : Option File)
    (clear : Bool) (path msg : String)
    (hargs : scanArgs (argv.drop 1) (false, none, none) = (clear, some path, some msg)) :
    Ran file0 clear (main fuel env argv (boot file0)).1 (main fuel env argv (boot file0)).2.trace
      ((main fuel env argv (boot file0)).2.file.map File.mode) := by
  unfold main
  simp only [hargs]
  obtain ⟨r, hs, hcase⟩ := sys_stat_spec env (boot file0)
  rw [hs]
  rcases hcase with ⟨e, rfl⟩ | ⟨f, rfl, hfile⟩
  · by_cases he : e = ENOENT
    · subst he
      simp only [ne_eq, not_true_eq_false, if_false]
      obtain ⟨ro, F, fds, ho, hcase⟩ := sys_open_spec env
        ((boot file0).after Call.stat (Ret.err ENOENT) (boot file0).file (boot file0).fds)
        ⟨true, true, false, false⟩ 0
      simp only [ho]
      rcases hcase with ⟨e, rfl, hF, hfds⟩ | ⟨cfd, rfl, rfl, hF⟩
      · have := @Ran.createFailed file0 clear e
        simpa [World.after, World.say, World.perror, boot, hF, hfds] using this
      · rcases hF with ⟨h0, rfl⟩ | ⟨f2, c, _, hx, _⟩
        · have h0 : file0 = none := by simpa [World.after, boot] using h0
          subst h0
          obtain ⟨rc, fds, hc⟩ := sys_close_spec env
            (((boot none).after Call.stat (Ret.err ENOENT) (boot none).file (boot none).fds).after
              (Call.open ⟨true, true, false, false⟩ 0) (Ret.ok cfd) (some ⟨S_IFREG + 0 % 4096, []⟩)
              (cfd :: ((boot none).after Call.stat (Ret.err ENOENT) (boot none).file
                (boot none).fds).fds)) cfd
          simp only [hc]
          cases rc with
          | err e =>
            have := @Ran.closeFailed none clear cfd e rfl
            simpa [World.after, World.say, World.perror, boot] using this
          | ok v =>
            simp only []
            obtain ⟨r2, hs2, hcase2⟩ := sys_stat_spec env
              ((((boot none).after Call.stat (Ret.err ENOENT) (boot none).file (boot none).fds).after
                (Call.open ⟨true, true, false, false⟩ 0) (Ret.ok cfd) (some ⟨S_IFREG + 0 % 4096, []⟩)
                (cfd :: ((boot none).after Call.stat (Ret.err ENOENT) (boot none).file (boot none).fds).fds)).after (Call.close cfd) (Ret.ok v)
                (((boot none).after Call.stat (Ret.err ENOENT) (boot none).file (boot none).fds).after
                (Call.open ⟨true, true, false, false⟩ 0) (Ret.ok cfd) (some ⟨S_IFREG + 0 % 4096, []⟩)
                (cfd :: ((boot none).after Call.stat (Ret.err ENOENT) (boot none).file (boot none).fds).fds)).file fds)
            rw [hs2]
            rcases hcase2 with ⟨e, rfl⟩ | ⟨f, rfl, hfile⟩
            · have := @Ran.restatFailed none clear cfd v e rfl
              simpa [World.after, World.say, World.perror, boot] using this
            · have hf : f = ⟨S_IFREG + 0 % 4096, []⟩ := by
                simp only [World.after] at hfile
                exact (Option.some.inj hfile).symm
              subst hf
              obtain ⟨rest, m2, t, fm, sec⟩ := main_secured_shape fuel env clear path msg
                (((((boot none).after Call.stat (Ret.err ENOENT) (boot none).file (boot none).fds).after
                (Call.open ⟨true, true, false, false⟩ 0) (Ret.ok cfd) (some ⟨S_IFREG + 0 % 4096, []⟩)
                (cfd :: ((boot none).after Call.stat (Ret.err ENOENT) (boot none).file (boot none).fds).fds)).after (Call.close cfd) (Ret.ok v)
                (((boot none).after Call.stat (Ret.err ENOENT) (boot none).file (boot none).fds).after
                (Call.open ⟨true, true, false, false⟩ 0) (Ret.ok cfd) (some ⟨S_IFREG + 0 % 4096, []⟩)
                (cfd :: ((boot none).after Call.stat (Ret.err ENOENT) (boot none).file (boot none).fds).fds)).file fds).after Call.stat (Ret.ok (S_IFREG + 0 % 4096))
                  ((((boot none).after Call.stat (Ret.err ENOENT) (boot none).file (boot none).fds).after
                (Call.open ⟨true, true, false, false⟩ 0) (Ret.ok cfd) (some ⟨S_IFREG + 0 % 4096, []⟩)
                (cfd :: ((boot none).after Call.stat (Ret.err ENOENT) (boot none).file (boot none).fds).fds)).after (Call.close cfd) (Ret.ok v)
                (((boot none).after Call.stat (Ret.err ENOENT) (boot none).file (boot none).fds).after
                (Call.open ⟨true, true, false, false⟩ 0) (Ret.ok cfd) (some ⟨S_IFREG + 0 % 4096, []⟩)
                (cfd :: ((boot none).after Call.stat (Ret.err ENOENT) (boot none).file (boot none).fds).fds)).file fds).file
                  ((((boot none).after Call.stat (Ret.err ENOENT) (boot none).file (boot none).fds).after
                (Call.open ⟨true, true, false, false⟩ 0) (Ret.ok cfd) (some ⟨S_IFREG + 0 % 4096, []⟩)
                (cfd :: ((boot none).after Call.stat (Ret.err ENOENT) (boot none).file (boot none).fds).fds)).after (Call.close cfd) (Ret.ok v)
                (((boot none).after Call.stat (Ret.err ENOENT) (boot none).file (boot none).fds).after
                (Call.open ⟨true, true, false, false⟩ 0) (Ret.ok cfd) (some ⟨S_IFREG + 0 % 4096, []⟩)
                (cfd :: ((boot none).after Call.stat (Ret.err ENOENT) (boot none).file (boot none).fds).fds)).file fds).fds)
                ⟨S_IFREG + 0 % 4096, []⟩ (by simp [World.after])
              simp only []
              rw [t, fm]
              have := @Ran.created none clear cfd v _ rest m2 rfl sec
              simpa [World.after, boot] using this
        · simp at hx
    · simp only [ne_eq, he, not_false_eq_true, if_true]
      have := @Ran.statFailed file0 clear e he
      simpa [World.after, World.say, World.perror, boot] using this
  · obtain ⟨rest, m2, t, fm, sec⟩ := main_secured_shape fuel env clear path msg
      ((boot file0).after Call.stat (Ret.ok f.mode) (boot file0).file (boot file0).fds) f
      (by simpa [World.after] using hfile)
    simp only []
    rw [t, fm]
    have hfile : file0 = some f := by simpa [boot] using hfile
    have := @Ran.existing file0 clear f _ rest m2 hfile sec
    simpa [World.after, boot, hfile] using this

/-! ## Termination of `main` -/

theorem main_write_failed_code (env : Env) (w : World) (fd : Nat) :
    (main_write_failed env w fd).1 = some 9 := by
  simp [main_write_failed]

theorem main_write_returns (fuel : Nat) (env : Env) (msg : String) (w : World) (fd b : Nat)
    (hwf : env.WellFormed) (hb : env.CalmFrom b) (hsz : msg.length < SIZE_MOD)
    (hfuel : msg.length + b + 1 < fuel) : (main_write fuel env msg w fd).1 ≠ none := by
  unfold main_write
  have r1 := write_all_returns env fd msg.toList msg.length b fuel w hwf hsz hb (by omega)
  rcases h1 : write_all fuel env w fd msg.toList msg.length with ⟨v1, w3⟩
  rw [h1] at r1
  cases v1 with
  | none => exact absurd rfl r1
  | some v1 =>
    simp only []
    by_cases hv : v1 < 0
    · simp [hv, main_write_failed_code]
    · simp only [hv, if_false]
      have r2 := write_all_returns env fd ['\n'] 1 b fuel w3 hwf (by decide) hb (by omega)
      rcases h2 : write_all fuel env w3 fd ['\n'] 1 with ⟨v2, w4⟩
      rw [h2] at r2
      cases v2 with
      | none => exact absurd rfl r2
      | some v2 =>
        simp only []
        by_cases hv2 : v2 < 0
        · simp [hv2, main_write_failed_code]
        · simp only [hv2, if_false]
          rcases sys_chmod env w4 0 with ⟨rc, w5⟩
          cases rc with
          | ok _ =>
            simp only []
            rcases sys_close env w5 fd with ⟨rd, w7⟩
            cases rd <;> simp
          | err _ =>
            simp only []
            rcases sys_close env (w5.perror "chmod 000") fd with ⟨rd, w7⟩
            cases rd <;> simp

theorem main_secured_returns (fuel : Nat) (env : Env) (clear : Bool) (path msg : String)
    (st_mode : Nat) (w : World) (b : Nat)
    (hwf : env.WellFormed) (hb : env.CalmFrom b) (hsz : msg.length < SIZE_MOD)
    (hfuel : msg.length + b + 1 < fuel) :
    (main_secured fuel env clear path msg st_mode w).1 ≠ none := by
  unfold main_secured
  by_cases hbits : st_mode &&& 0o777 ≠ 0
  · simp [hbits]
  · simp only [hbits, if_false]
    rcases sys_chmod env w 0o200 with ⟨rc, w1⟩
    cases rc with
    | err _ => simp
    | ok _ =>
      simp only []
      rcases sys_open env w1 ⟨false, false, clear, !clear⟩ 0 with ⟨ro, w2⟩
      cases ro with
      | err _ => simp
      | ok fd => exact main_write_returns fuel env msg w2 fd b hwf hb hsz hfuel

theorem main_returns (fuel : Nat) (env : Env) (argv : List String) (w : World) (b : Nat)
    (hwf : env.WellFormed) (hb : env.CalmFrom b)
    (hsz : ∀ m, (scanArgs (argv.drop 1) (false, none, none)).2.2 = some m →
      m.length < SIZE_MOD ∧ m.length + b + 1 < fuel) :
    (main fuel env argv w).1 ≠ none := by
  unfold main
  rcases hs : scanArgs (argv.drop 1) (false, none, none) with ⟨clear, path, msg⟩
  rw [hs] at hsz
  cases path with
  | none => simp
  | some path =>
    cases msg with
    | none => simp
    | some msg =>
      obtain ⟨h1, h2⟩ := hsz msg rfl
      simp only []
      rcases sys_stat env w with ⟨rs, w0⟩
      cases rs with
      | ok m => exact main_secured_returns fuel env clear path msg m w0 b hwf hb h1 h2
      | err e =>
        simp only []
        by_cases he : e = ENOENT
        · simp only [he, ne_eq, not_true_eq_false, if_false]
          rcases sys_open env w0 ⟨true, true, false, false⟩ 0 with ⟨ro, w1⟩
          cases ro with
          | err _ => simp
          | ok cfd =>
            simp only []
            rcases sys_close env w1 cfd with ⟨rc, w2⟩
            cases rc with
            | err _ => simp
            | ok _ =>
              simp only []
              rcases sys_stat env w2 with ⟨rs2, w3⟩
              cases rs2 with
              | err _ => simp
              | ok m => exact main_secured_returns fuel env clear path msg m w3 b hwf hb h1 h2
        · simp [he]

/-! ## Argument scan -/

theorem scanArgs_full (args : List String) (c : Bool) (p m : String) :
    scanArgs args (c, some p, some m) = (c || decide ("-c" ∈ args), some p, some m) := by
  induction args generalizing c with
  | nil => simp [scanArgs]
  | cons a rest ih =>
    by_cases h : a = "-c"
    · simp [scanArgs, h, ih]
    · have h2 : ¬ ("-c" = a) := fun e => h e.symm
      simp [scanArgs, h, h2, ih]

theorem scanArgs_half (args : List String) (c : Bool) (p : String) :
    scanArgs args (c, some p, none) =
      (c || decide ("-c" ∈ args), some p, (nonFlags args)[0]?) := by
  induction args generalizing c with
  | nil => simp [scanArgs, nonFlags]
  | cons a rest ih =>
    by_cases h : a = "-c"
    · simp [scanArgs, h, ih, nonFlags]
    · have h2 : ¬ ("-c" = a) := fun e => h e.symm
      simp [scanArgs, h, h2, scanArgs_full, nonFlags]

theorem scanArgs_none (args : List String) (c : Bool) :
    scanArgs args (c, none, none) =
      (c || decide ("-c" ∈ args), (nonFlags args)[0]?, (nonFlags args)[1]?) := by
  induction args generalizing c with
  | nil => simp [scanArgs, nonFlags]
  | cons a rest ih =>
    by_cases h : a = "-c"
    · simp [scanArgs, h, ih, nonFlags]
    · have h2 : ¬ ("-c" = a) := fun e => h e.symm
      simp [scanArgs, h, h2, scanArgs_half, nonFlags]

/-- C9: the scan sets `clear` exactly when some argument is "-c", takes the
first argument that is not "-c" as path and the second as message; so the
flag may stand before, between or after the two, and without it `clear` is
false. -/
theorem scanArgs_spec (args : List String) :
    scanArgs args (false, none, none) =
        (decide ("-c" ∈ args), (nonFlags args)[0]?, (nonFlags args)[1]?) ∧
      ∀ p m : String, p ≠ "-c" → m ≠ "-c" →
        scanArgs ["-c", p, m] (false, none, none) = (true, some p, some m) ∧
        scanArgs [p, "-c", m] (false, none, none) = (true, some p, some m) ∧
        scanArgs [p, m, "-c"] (false, none, none) = (true, some p, some m) ∧
        scanArgs [p, m] (false, none, none) = (false, some p, some m) := by
  refine ⟨by simp [scanArgs_none], ?_⟩
  intro p m hp hm
  have hp2 : ¬ ("-c" = p) := fun e => hp e.symm
  have hm2 : ¬ ("-c" = m) := fun e => hm e.symm
  simp [scanArgs_none, nonFlags, hp, hm, hp2, hm2]

theorem scanArgs_spec_witness :
    scanArgs ["-c", "-c", "f", "x", "y"] (false, none, none) =
        (decide ("-c" ∈ ["-c", "-c", "f", "x", "y"]),
          (nonFlags ["-c", "-c", "f", "x", "y"])[0]?,
          (nonFlags ["-c", "-c", "f", "x", "y"])[1]?) ∧
      scanArgs ["-c", "note.txt", "hello"] (false, none, none)
        = (true, some "note.txt", some "hello") ∧
      scanArgs ["note.txt", "-c", "hello"] (false, none, none)
        = (true, some "note.txt", some "hello") ∧
      scanArgs ["note.txt", "hello", "-c"] (false, none, none)
        = (true, some "note.txt", some "hello") ∧
      scanArgs ["note.txt", "hello"] (false, none, none)
        = (false, some "note.txt", some "hello") :=
  ⟨(scanArgs_spec ["-c", "-c", "f", "x", "y"]).1,
    (scanArgs_spec []).2 "note.txt" "hello" (by decide) (by decide)⟩

/-! ## Sample environments -/

theorem calmEnv_wellFormed : calmEnv.WellFormed := by
  intro t count h
  simp only [calmEnv]
  omega

theorem calmEnv_gentle : calmEnv.Gentle := fun _ _ => Or.inl rfl

theorem calmEnv_calmFrom : calmEnv.CalmFrom 0 := by
  intro t c _ h
  simp [calmEnv] at h

theorem choppyEnv_wellFormed : choppyEnv.WellFormed := by
  intro t count h
  simp only [choppyEnv]
  omega

theorem choppyEnv_gentle : choppyEnv.Gentle := by
  intro t c
  cases c <;> simp only [choppyEnv, Call.isWrite, true_and, false_and, or_false] <;> try trivial
  by_cases h : t = 3 <;> simp [h]

theorem choppyEnv_calmFrom : choppyEnv.CalmFrom 4 := by
  intro t c ht h
  cases c <;> simp only [choppyEnv] at h <;> try cases h
  have : ¬ t = 3 := by omega
  simp [this] at h

/-! ## `write_all` -/

/-- C7: for a buffer `s`, a count `n` that fits `size_t` and writes that accept
between one byte and the bytes requested, every call `write_all` makes is a
write of the `n - i` bytes at `s + i`, where `i` is the number of bytes
accepted before it; the call after a write that failed with `EINTR` is the
same call again, and nothing follows another failure; when 0 is returned the
bytes accepted are, in order, the first `n` bytes of `s`; and -1 is returned
exactly when a write failed with an error other than `EINTR`, which happens
with fewer than `n` bytes accepted. -/
theorem write_all_discipline (fuel : Nat) (env : Env) (w : World) (fd : Nat) (s : List Char)
    (n : Nat) (hwf : env.WellFormed) (hsz : n < SIZE_MOD) :
    ∃ evs, (write_all fuel env w fd s n).2.trace = w.trace ++ evs ∧
      WritesFrom fd s n 0 evs ∧
      (∀ pre e post, evs = pre ++ e :: post →
        e.call = Call.write fd (s.drop (acceptedCount pre)) (n - acceptedCount pre) ∧
        ∀ e2 rest, post = e2 :: rest → e.ret = Ret.err EINTR → e2.call = e.call) ∧
      ((write_all fuel env w fd s n).1 = some 0 →
        acceptedCount evs = n ∧ acceptedBytes evs = s.take n) ∧
      ((write_all fuel env w fd s n).1 = some (-1) ↔ ∃ e ∈ evs, e.fatalWrite = true) ∧
      ((∃ e ∈ evs, e.fatalWrite = true) → acceptedCount evs < n) ∧
      ((write_all fuel env w fd s n).1 = none ∨ (write_all fuel env w fd s n).1 = some 0 ∨
        (write_all fuel env w fd s n).1 = some (-1)) := by
  obtain ⟨evs, h⟩ := loop_post env fd s n fuel 0 w
  unfold write_all
  generalize write_all_loop env fd s n fuel 0 w = res at h
  obtain ⟨h1, _, _, _, _, _, h7, h8, _, h10⟩ := h
  obtain ⟨a1, _, _, a4, a5⟩ := h10 hwf hsz (Nat.zero_le _)
  refine ⟨evs, h1, a1, ?_, ?_, h8, ?_, h7⟩
  · intro pre e post hsplit
    rw [hsplit] at a1
    simpa using writesFrom_at fd s n pre 0 e post a1
  · intro hr
    simpa using a4 hr
  · intro hx
    simpa using a5 hx

theorem write_all_discipline_witness :
    ∃ evs, (write_all 9 choppyEnv ⟨some ⟨S_IFREG + 0o200, []⟩, [3], 3, [], []⟩ 3
        ['h', 'i'] 2).2.trace = [] ++ evs ∧
      WritesFrom 3 ['h', 'i'] 2 0 evs ∧
      (∀ pre e post, evs = pre ++ e :: post →
        e.call = Call.write 3 (['h', 'i'].drop (acceptedCount pre)) (2 - acceptedCount pre) ∧
        ∀ e2 rest, post = e2 :: rest → e.ret = Ret.err EINTR → e2.call = e.call) ∧
      ((write_all 9 choppyEnv ⟨some ⟨S_IFREG + 0o200, []⟩, [3], 3, [], []⟩ 3
        ['h', 'i'] 2).1 = some 0 →
        acceptedCount evs = 2 ∧ acceptedBytes evs = ['h', 'i'].take 2) ∧
      ((write_all 9 choppyEnv ⟨some ⟨S_IFREG + 0o200, []⟩, [3], 3, [], []⟩ 3
        ['h', 'i'] 2).1 = some (-1) ↔ ∃ e ∈ evs, e.fatalWrite = true) ∧
      ((∃ e ∈ evs, e.fatalWrite = true) → acceptedCount evs < 2) ∧
      ((write_all 9 choppyEnv ⟨some ⟨S_IFREG + 0o200, []⟩, [3], 3, [], []⟩ 3
          ['h', 'i'] 2).1 = none ∨
        (write_all 9 choppyEnv ⟨some ⟨S_IFREG + 0o200, []⟩, [3], 3, [], []⟩ 3
          ['h', 'i'] 2).1 = some 0 ∨
        (write_all 9 choppyEnv ⟨some ⟨S_IFREG + 0o200, []⟩, [3], 3, [], []⟩ 3
          ['h', 'i'] 2).1 = some (-1)) :=
  write_all_discipline 9 choppyEnv ⟨some ⟨S_IFREG + 0o200, []⟩, [3], 3, [], []⟩ 3 ['h', 'i'] 2
    choppyEnv_wellFormed (by decide)

/-- C10: when writes accept between one byte and the bytes requested and no
write is interrupted from clock `b` on, `write_all` returns once the fuel
exceeds `n + b`; whatever the fuel, it makes at most `n` successful writes,
accepts at most `n` bytes, and every write it issues is at an offset
`j < n` with the positive length `n - j`; for `n = 0` it issues no call and
returns 0. -/
theorem write_all_terminates (fuel : Nat) (env : Env) (w : World) (fd : Nat) (s : List Char)
    (n b : Nat) (hwf : env.WellFormed) (hsz : n < SIZE_MOD) (hb : env.CalmFrom b) :
    (n + b < fuel → (write_all fuel env w fd s n).1 ≠ none) ∧
    (∃ evs, (write_all fuel env w fd s n).2.trace = w.trace ++ evs ∧
      (evs.filter Event.okWrite).length ≤ n ∧ acceptedCount evs ≤ n ∧
      ∀ e ∈ evs, ∃ j, j < n ∧ 0 < n - j ∧ e.call = Call.write fd (s.drop j) (n - j)) ∧
    (n = 0 → 0 < fuel → write_all fuel env w fd s n = (some 0, w)) := by
  refine ⟨fun hfuel => write_all_returns env fd s n b fuel w hwf hsz hb hfuel, ?_, ?_⟩
  · obtain ⟨evs, h⟩ := loop_post env fd s n fuel 0 w
    unfold write_all
    generalize write_all_loop env fd s n fuel 0 w = res at h
    obtain ⟨h1, _, _, _, _, _, _, _, _, h10⟩ := h
    obtain ⟨a1, a2, a3, _, _⟩ := h10 hwf hsz (Nat.zero_le _)
    refine ⟨evs, h1, by omega, by omega, ?_⟩
    intro e he
    obtain ⟨j, hj, hc⟩ := writesFrom_calls fd s n evs 0 a1 e he
    exact ⟨j, hj, by omega, hc⟩
  · intro hn hfuel
    obtain ⟨k, rfl⟩ : ∃ k, fuel = k + 1 := ⟨fuel - 1, by omega⟩
    subst hn
    simp [write_all, write_all_loop]

theorem write_all_terminates_witness :
    (write_all 9 choppyEnv ⟨some ⟨S_IFREG + 0o200, []⟩, [3], 3, [], []⟩ 3
      ['h', 'i'] 2).1 ≠ none ∧
    (∃ evs, (write_all 9 choppyEnv ⟨some ⟨S_IFREG + 0o200, []⟩, [3], 3, [], []⟩ 3
        ['h', 'i'] 2).2.trace = [] ++ evs ∧
      (evs.filter Event.okWrite).length ≤ 2 ∧ acceptedCount evs ≤ 2 ∧
      ∀ e ∈ evs, ∃ j, j < 2 ∧ 0 < 2 - j ∧ e.call = Call.write 3 (['h', 'i'].drop j) (2 - j)) :=
  ⟨(write_all_terminates 9 choppyEnv ⟨some ⟨S_IFREG + 0o200, []⟩, [3], 3, [], []⟩ 3 ['h', 'i']
      2 4 choppyEnv_wellFormed (by decide) choppyEnv_calmFrom).1 (by decide),
    (write_all_terminates 9 choppyEnv ⟨some ⟨S_IFREG + 0o200, []⟩, [3], 3, [], []⟩ 3 ['h', 'i']
      2 4 choppyEnv_wellFormed (by decide) choppyEnv_calmFrom).2.1⟩

/-! ## The successful runs -/

/-- C1, as amended: on an existing file whose permission bits are 0, with
content `P`, a run in which no system call fails at all, the restoring
`chmod(path, 0)` included, except that writes may be short or interrupted by
`EINTR`, returns 0 and leaves `P ++ M ++ "\n"` without `-c` and `M ++ "\n"`
with `-c`, the permission bits 0 again; it returns once the fuel exceeds the
message length plus the clock from which no write is interrupted. -/
theorem main_on_locked_file (fuel : Nat) (env : Env) (argv : List String) (clear : Bool)
    (path msg : String) (mode : Nat) (P : List Char)
    (hargs : scanArgs (argv.drop 1) (false, none, none) = (clear, some path, some msg))
    (hmode : mode &&& 0o777 = 0) (hg : env.Gentle) (hwf : env.WellFormed)
    (hsz : msg.length < SIZE_MOD) :
    ((main fuel env argv (boot (some ⟨mode, P⟩))).1 = none ∨
      ((main fuel env argv (boot (some ⟨mode, P⟩))).1 = some 0 ∧
        (main fuel env argv (boot (some ⟨mode, P⟩))).2.file =
          some ⟨mode / 4096 * 4096,
            if clear then msg.toList ++ ['\n'] else P ++ msg.toList ++ ['\n']⟩)) ∧
    (mode / 4096 * 4096) &&& 0o777 = 0 ∧
    (∀ b, env.CalmFrom b → msg.length + b + 1 < fuel →
      (main fuel env argv (boot (some ⟨mode, P⟩))).1 ≠ none) := by
  refine ⟨?_, ?_, ?_⟩
  · have c1 := hg.calm env
    have key := main_secured_gentle fuel env clear path msg
      ((boot (some ⟨mode, P⟩)).after Call.stat (Ret.ok mode) (some ⟨mode, P⟩) []) ⟨mode, P⟩
      hg hwf hsz rfl hmode
    have e : main fuel env argv (boot (some ⟨mode, P⟩)) = main_secured fuel env clear path msg mode
        ((boot (some ⟨mode, P⟩)).after Call.stat (Ret.ok mode) (some ⟨mode, P⟩) []) := by
      unfold main
      simp only [hargs]
      simp [sys_stat, c1 _ _ (rfl : Call.stat.isWrite = false), boot, World.reply, World.after]
    rw [e]
    cases clear <;> simpa using key
  · have := perm_bits_after_chmod (mode / 4096) 0
    simpa using this
  · intro b hb hfuel
    exact main_returns fuel env argv _ b hwf hb (by
      intro m hm
      rw [hargs] at hm
      cases hm
      exact ⟨hsz, hfuel⟩)

theorem main_on_locked_file_witness :
    (main 9 choppyEnv ["z2079516", "note.txt", "b"] (boot (some ⟨S_IFREG, ['a', '\n']⟩))).1
        = some 0 ∧
      (main 9 choppyEnv ["z2079516", "note.txt", "b"]
        (boot (some ⟨S_IFREG, ['a', '\n']⟩))).2.file = some ⟨S_IFREG, ['a', '\n', 'b', '\n']⟩ := by
  have h := main_on_locked_file 9 choppyEnv ["z2079516", "note.txt", "b"] false "note.txt" "b"
    S_IFREG ['a', '\n'] (by decide) (by decide) choppyEnv_gentle choppyEnv_wellFormed
    (by decide)
  have h0 := h.2.2 4 choppyEnv_calmFrom (by decide)
  rcases h.1 with hn | ⟨h1, h2⟩
  · exact absurd hn h0
  · exact ⟨h1, by simpa using h2⟩

/-- C1, as stated, fails when the restoring `chmod(path, 0)` is the call that
fails: line 83 only logs that failure, so no system call fails fatally, no
step of the trace is a failing step and `main` returns 0 with the content
`P ++ M ++ "\n"`, yet the permission bits are left at 0200. -/
theorem main_on_locked_file_restore_fails :
    (main 3 stickyEnv ["z2079516", "note.txt", "b"] (boot (some ⟨S_IFREG, ['a', '\n']⟩))).1
        = some 0 ∧
      (main 3 stickyEnv ["z2079516", "note.txt", "b"]
        (boot (some ⟨S_IFREG, ['a', '\n']⟩))).2.trace =
          [⟨Call.stat, Ret.ok S_IFREG, some S_IFREG⟩,
            ⟨Call.chmod 0o200, Ret.ok 0, some (S_IFREG + 0o200)⟩,
            ⟨Call.open ⟨false, false, false, true⟩ 0, Ret.ok 3, some (S_IFREG + 0o200)⟩,
            ⟨Call.write 3 ['b'] 1, Ret.ok 1, some (S_IFREG + 0o200)⟩,
            ⟨Call.write 3 ['\n'] 1, Ret.ok 1, some (S_IFREG + 0o200)⟩,
            ⟨Call.chmod 0, Ret.err 1, some (S_IFREG + 0o200)⟩,
            ⟨Call.close 3, Ret.ok 0, some (S_IFREG + 0o200)⟩] ∧
      firstFailure [] (main 3 stickyEnv ["z2079516", "note.txt", "b"]
        (boot (some ⟨S_IFREG, ['a', '\n']⟩))).2.trace = none ∧
      (main 3 stickyEnv ["z2079516", "note.txt", "b"]
        (boot (some ⟨S_IFREG, ['a', '\n']⟩))).2.file =
          some ⟨S_IFREG + 0o200, ['a', '\n', 'b', '\n']⟩ ∧
      (main 3 stickyEnv ["z2079516", "note.txt", "b"]
        (boot (some ⟨S_IFREG, ['a', '\n']⟩))).2.stderr = ["chmod 000"] ∧
      S_IFREG &&& 0o777 = 0 ∧ (S_IFREG + 0o200) &&& 0o777 = 0o200 := by
  decide

/-- C2: where no file exists, a run in which nothing fails (writes may be
short or interrupted) creates the file and returns 0; the file then holds the
message followed by one newline and its permission bits are 0, with or
without `-c`; the run returns once the fuel exceeds the message length plus
the clock from which no write is interrupted. -/
theorem main_on_absent_file (fuel : Nat) (env : Env) (argv : List String) (clear : Bool)
    (path msg : String)
    (hargs : scanArgs (argv.drop 1) (false, none, none) = (clear, some path, some msg))
    (hg : env.Gentle) (hwf : env.WellFormed) (hsz : msg.length < SIZE_MOD) :
    ((main fuel env argv (boot none)).1 = none ∨
      ((main fuel env argv (boot none)).1 = some 0 ∧
        (main fuel env argv (boot none)).2.file = some ⟨S_IFREG, msg.toList ++ ['\n']⟩)) ∧
    S_IFREG &&& 0o777 = 0 ∧
    (∀ b, env.CalmFrom b → msg.length + b + 1 < fuel →
      (main fuel env argv (boot none)).1 ≠ none) := by
  refine ⟨?_, by decide, ?_⟩
  · have c1 := hg.calm env
    have key := main_secured_gentle fuel env clear path msg
      ⟨some ⟨S_IFREG, []⟩, [], 4,
        [⟨Call.stat, Ret.err ENOENT, none⟩,
          ⟨Call.open ⟨true, true, false, false⟩ 0, Ret.ok 3, some S_IFREG⟩,
          ⟨Call.close 3, Ret.ok 0, some S_IFREG⟩,
          ⟨Call.stat, Ret.ok S_IFREG, some S_IFREG⟩], []⟩ ⟨S_IFREG, []⟩
      hg hwf hsz rfl (by decide)
    have e : main fuel env argv (boot none) = main_secured fuel env clear path msg S_IFREG
        ⟨some ⟨S_IFREG, []⟩, [], 4,
          [⟨Call.stat, Ret.err ENOENT, none⟩,
            ⟨Call.open ⟨true, true, false, false⟩ 0, Ret.ok 3, some S_IFREG⟩,
            ⟨Call.close 3, Ret.ok 0, some S_IFREG⟩,
            ⟨Call.stat, Ret.ok S_IFREG, some S_IFREG⟩], []⟩ := by
      unfold main
      simp only [hargs]
      simp [sys_stat, sys_open, sys_close,
        c1 _ _ (rfl : Call.stat.isWrite = false),
        c1 _ _ (rfl : (Call.open _ _).isWrite = false),
        c1 _ _ (rfl : (Call.close _).isWrite = false), boot, World.reply, allocFd_nil]
    rw [e]
    cases clear <;> simpa using key
  · intro b hb hfuel
    exact main_returns fuel env argv _ b hwf hb (by
      intro m hm
      rw [hargs] at hm
      cases hm
      exact ⟨hsz, hfuel⟩)

theorem main_on_absent_file_witness :
    (main 12 choppyEnv ["z2079516", "note.txt", "hello"] (boot none)).1 = some 0 ∧
      (main 12 choppyEnv ["z2079516", "note.txt", "hello"] (boot none)).2.file =
        some ⟨S_IFREG, ['h', 'e', 'l', 'l', 'o', '\n']⟩ := by
  have h := main_on_absent_file 12 choppyEnv ["z2079516", "note.txt", "hello"] false "note.txt"
    "hello" (by decide) choppyEnv_gentle choppyEnv_wellFormed (by decide)
  have h0 := h.2.2 4 choppyEnv_calmFrom (by decide)
  rcases h.1 with hn | ⟨h1, h2⟩
  · exact absurd hn h0
  · exact ⟨h1, by simpa using h2⟩

/-- C3: when path and message are given, the file exists and the `stat` that
observes it shows permission bits other than 0, `main` returns 6 after that
one `stat`: no `chmod`, `open` or `write` is made and the file is as it was. -/
theorem main_refuses_insecure (fuel : Nat) (env : Env) (argv : List String) (clear : Bool)
    (path msg : String) (f : File)
    (hargs : scanArgs (argv.drop 1) (false, none, none) = (clear, some path, some msg))
    (hstat : env.fault 0 Call.stat = none) (hbits : f.mode &&& 0o777 ≠ 0) :
    (main fuel env argv (boot (some f))).1 = some 6 ∧
    (main fuel env argv (boot (some f))).2.trace = [⟨Call.stat, Ret.ok f.mode, some f.mode⟩] ∧
    (main fuel env argv (boot (some f))).2.file = some f ∧
    (main fuel env argv (boot (some f))).2.stderr = [path ++ " is not secure. Ignoring.\n"] := by
  unfold main
  simp only [hargs]
  simp [sys_stat, boot, hstat, World.reply, main_secured, hbits, World.say, World.perror]

theorem main_refuses_insecure_witness :
    (main 0 calmEnv ["z2079516", "-c", "note.txt", "x"]
        (boot (some ⟨S_IFREG + 0o644, ['a']⟩))).1 = some 6 ∧
      (main 0 calmEnv ["z2079516", "-c", "note.txt", "x"]
        (boot (some ⟨S_IFREG + 0o644, ['a']⟩))).2.trace =
          [⟨Call.stat, Ret.ok (S_IFREG + 0o644), some (S_IFREG + 0o644)⟩] ∧
      (main 0 calmEnv ["z2079516", "-c", "note.txt", "x"]
        (boot (some ⟨S_IFREG + 0o644, ['a']⟩))).2.file = some ⟨S_IFREG + 0o644, ['a']⟩ ∧
      (main 0 calmEnv ["z2079516", "-c", "note.txt", "x"]
        (boot (some ⟨S_IFREG + 0o644, ['a']⟩))).2.stderr =
          ["note.txt" ++ " is not secure. Ignoring.\n"] :=
  main_refuses_insecure 0 calmEnv ["z2079516", "-c", "note.txt", "x"] true "note.txt" "x"
    ⟨S_IFREG + 0o644, ['a']⟩ (by decide) rfl (by decide)

/-! ## Usage errors -/

theorem Finish.fin_code_ne_one {fd m : Nat} {fatal : Bool} {code : Option Int} {tail : List Event}
    {m2 : Nat} (h : Finish fd m fatal code tail m2) : code ≠ some 1 := by
  cases h <;> simp

theorem Secured.sec_code_ne_one {clear : Bool} {m : Nat} {code : Option Int} {rest : List Event}
    {m2 : Nat} (h : Secured clear m code rest m2) : code ≠ some 1 := by
  cases h with
  | insecure _ => simp
  | locked _ _ => simp
  | unopened _ _ _ _ _ _ => simp
  | opened _ _ _ _ _ _ _ _ _ _ fin => exact fin.fin_code_ne_one

theorem Ran.ran_code_ne_one {file0 : Option File} {clear : Bool} {code : Option Int}
    {tr : List Event} {m : Option Nat} (h : Ran file0 clear code tr m) : code ≠ some 1 := by
  cases h with
  | statFailed _ _ => simp
  | createFailed _ => simp
  | closeFailed _ _ _ => simp
  | restatFailed _ _ _ _ => simp
  | existing _ _ _ _ _ sec => exact sec.sec_code_ne_one
  | created _ _ _ _ _ _ sec => exact sec.sec_code_ne_one

theorem main_args_cases (fuel : Nat) (env : Env) (argv : List String) (file0 : Option File) :
    ((nonFlags (argv.drop 1)).length < 2 ∧
      main fuel env argv (boot file0) =
        (some 1, ⟨file0, [], 0, [], [usageText (argv.headD "(null)")]⟩)) ∨
    (¬ (nonFlags (argv.drop 1)).length < 2 ∧
      ∃ clear path msg,
        scanArgs (argv.drop 1) (false, none, none) = (clear, some path, some msg)) := by
  have hscan := scanArgs_none (argv.drop 1) false
  by_cases hlen : (nonFlags (argv.drop 1)).length < 2
  · have hmsg : (nonFlags (argv.drop 1))[1]? = none := by
      apply List.getElem?_eq_none
      omega
    refine Or.inl ⟨hlen, ?_⟩
    unfold main
    rw [hscan, hmsg]
    cases (nonFlags (argv.drop 1))[0]? <;> simp [usage, World.say, World.perror, boot]
  · have h1 : 1 < (nonFlags (argv.drop 1)).length := by omega
    have h0 : 0 < (nonFlags (argv.drop 1)).length := by omega
    rw [List.getElem?_eq_getElem h0, List.getElem?_eq_getElem h1] at hscan
    exact Or.inr ⟨hlen, _, _, _, hscan⟩

/-- C6: `main` returns 1 exactly when fewer than two arguments differ from
"-c"; it then makes no system call: nothing is traced, the clock has not
moved, file and descriptors are as before, and the usage text is the only
thing written, to the error stream. -/
theorem main_usage (fuel : Nat) (env : Env) (argv : List String) (file0 : Option File) :
    ((main fuel env argv (boot file0)).1 = some 1 ↔ (nonFlags (argv.drop 1)).length < 2) ∧
    ((nonFlags (argv.drop 1)).length < 2 →
      main fuel env argv (boot file0) =
        (some 1, ⟨file0, [], 0, [], [usageText (argv.headD "(null)")]⟩)) := by
  rcases main_args_cases fuel env argv file0 with ⟨hlen, e⟩ | ⟨hlen, clear, path, msg, hscan⟩
  · exact ⟨⟨fun _ => hlen, fun _ => by rw [e]⟩, fun _ => e⟩
  · have := (main_shape fuel env argv file0 _ _ _ hscan).ran_code_ne_one
    exact ⟨⟨fun h => absurd h this, fun h => absurd h hlen⟩, fun h => absurd h hlen⟩

theorem main_usage_witness :
    main 5 calmEnv ["z2079516", "-c", "note.txt"] (boot (some ⟨S_IFREG, ['a']⟩)) =
      (some 1, ⟨some ⟨S_IFREG, ['a']⟩, [], 0, [], [usageText "z2079516"]⟩) :=
  (main_usage 5 calmEnv ["z2079516", "-c", "note.txt"] (some ⟨S_IFREG, ['a']⟩)).2 (by decide)

/-! ## Descriptors -/

theorem liveStep_write (live : List Nat) (e : Event) (h : e.call.isWrite = true) :
    liveStep live e = live := by
  rcases e with ⟨c, r, m⟩
  cases c <;> simp_all [liveStep, Call.isWrite]

theorem liveAfter_append (a b : List Event) :
    ∀ live, liveAfter live (a ++ b) = liveAfter (liveAfter live a) b := by
  induction a with
  | nil => intro live; rfl
  | cons e rest ih => intro live; simp [liveAfter, ih]

theorem oneAtATime_append (a b : List Event) :
    ∀ live, OneAtATime live (a ++ b) ↔ OneAtATime live a ∧ OneAtATime (liveAfter live a) b := by
  induction a with
  | nil =>
    intro live
    cases b <;> simp [OneAtATime, liveAfter]
  | cons e rest ih =>
    intro live
    simp [OneAtATime, liveAfter, ih, and_assoc]

theorem liveAfter_writes (evs : List Event) (h : ∀ e ∈ evs, e.call.isWrite = true) :
    ∀ live, liveAfter live evs = live := by
  induction evs with
  | nil => intro live; rfl
  | cons e rest ih =>
    intro live
    simp only [liveAfter, liveStep_write live e (h e (List.mem_cons_self _ _))]
    exact ih (fun x hx => h x (List.mem_cons_of_mem _ hx)) live

theorem oneAtATime_writes (evs : List Event) (h : ∀ e ∈ evs, e.call.isWrite = true) :
    ∀ live : List Nat, live.length ≤ 1 → OneAtATime live evs := by
  induction evs with
  | nil => intro live hl; exact hl
  | cons e rest ih =>
    intro live hl
    have hw := h e (List.mem_cons_self _ _)
    refine ⟨hl, ?_, ?_⟩
    · intro hc
      rw [hc] at hw
      cases hw
    · rw [liveStep_write live e hw]
      exact ih (fun x hx => h x (List.mem_cons_of_mem _ hx)) live hl

theorem Finish.fin_descriptors {fd m : Nat} {fatal : Bool} {code : Option Int} {tail : List Event}
    {m2 : Nat} (h : Finish fd m fatal code tail m2) :
    OneAtATime [fd] tail ∧ (code ≠ none → liveAfter [fd] tail = []) := by
  cases h <;> simp [OneAtATime, liveAfter, liveStep]

theorem Secured.sec_descriptors {clear : Bool} {m : Nat} {code : Option Int} {rest : List Event}
    {m2 : Nat} (h : Secured clear m code rest m2) :
    OneAtATime [] rest ∧ (code ≠ none → liveAfter [] rest = []) := by
  cases h with
  | insecure _ => simp [OneAtATime, liveAfter]
  | locked _ _ => simp [OneAtATime, liveAfter, liveStep]
  | unopened _ _ _ _ _ _ => simp [OneAtATime, liveAfter, liveStep]
  | opened v fd evs tail m2 fatal code _ hw _ fin =>
    have hw2 : ∀ e ∈ evs, e.call.isWrite = true := fun e he => (hw e he).1
    obtain ⟨f1, f2⟩ := fin.fin_descriptors
    rw [List.append_assoc, oneAtATime_append, liveAfter_append, oneAtATime_append,
      liveAfter_append]
    simp only [liveAfter, liveStep, liveAfter_writes evs hw2]
    exact ⟨⟨by simp [OneAtATime, liveStep], oneAtATime_writes evs hw2 [fd] (by simp), f1⟩, f2⟩

theorem Ran.ran_descriptors {file0 : Option File} {clear : Bool} {code : Option Int}
    {tr : List Event} {m : Option Nat} (h : Ran file0 clear code tr m) :
    OneAtATime [] tr ∧ (code ≠ none → liveAfter [] tr = []) := by
  cases h with
  | statFailed _ _ => simp [OneAtATime, liveAfter, liveStep]
  | createFailed _ => simp [OneAtATime, liveAfter, liveStep]
  | closeFailed _ _ _ => simp [OneAtATime, liveAfter, liveStep]
  | restatFailed _ _ _ _ => simp [OneAtATime, liveAfter, liveStep]
  | existing f code rest m2 _ sec =>
    obtain ⟨s1, s2⟩ := sec.sec_descriptors
    exact ⟨by simp [OneAtATime, liveStep, s1], by simpa [liveAfter, liveStep] using s2⟩
  | created cfd v code rest m2 _ sec =>
    obtain ⟨s1, s2⟩ := sec.sec_descriptors
    rw [oneAtATime_append, liveAfter_append]
    simp only [liveAfter, liveStep, List.erase_cons_head]
    exact ⟨⟨by simp [OneAtATime, liveStep], s1⟩, s2⟩

theorem oneAtATime_head (l : List Event) (live : List Nat) (h : OneAtATime live l) :
    live.length ≤ 1 := by
  cases l with
  | nil => exact h
  | cons e rest => exact h.1

/-- C8: in every run of `main`, whatever fails, at most one descriptor that
an `open` returned is in use at any moment (after every initial stretch of
the trace), none is in use when a `stat` is made (the creation descriptor is
closed before the second `stat`), and when `main` returns, with whatever
code, `close` has been called on every descriptor an `open` returned. -/
theorem main_descriptors (fuel : Nat) (env : Env) (argv : List String) (file0 : Option File) :
    OneAtATime [] (main fuel env argv (boot file0)).2.trace ∧
    (∀ pre post, (main fuel env argv (boot file0)).2.trace = pre ++ post →
      (liveAfter [] pre).length ≤ 1) ∧
    (∀ pre e post, (main fuel env argv (boot file0)).2.trace = pre ++ e :: post →
      e.call = Call.stat → liveAfter [] pre = []) ∧
    ((main fuel env argv (boot file0)).1 ≠ none →
      liveAfter [] (main fuel env argv (boot file0)).2.trace = []) := by
  have key : OneAtATime [] (main fuel env argv (boot file0)).2.trace ∧
      ((main fuel env argv (boot file0)).1 ≠ none →
        liveAfter [] (main fuel env argv (boot file0)).2.trace = []) := by
    rcases main_args_cases fuel env argv file0 with ⟨_, e⟩ | ⟨_, clear, path, msg, hscan⟩
    · rw [e]
      simp [OneAtATime, liveAfter]
    · exact (main_shape fuel env argv file0 _ _ _ hscan).ran_descriptors
  refine ⟨key.1, ?_, ?_, key.2⟩
  · intro pre post h
    have k := key.1
    rw [h, oneAtATime_append] at k
    exact oneAtATime_head post _ k.2
  · intro pre e post h hc
    have k := key.1
    rw [h, oneAtATime_append] at k
    exact k.2.2.1 hc

/-! ## Outcome codes -/

theorem stepCode_write (before : List Event) (e : Event) (h : e.call.isWrite = true) :
    stepCode before e = if e.fatalWrite then some 9 else none := by
  rcases e with ⟨c, r, m⟩
  cases c <;> simp [Call.isWrite] at h
  cases r <;> simp [stepCode, Event.fatalWrite]

theorem firstFailure_writes (evs tail : List Event) (h : ∀ e ∈ evs, e.call.isWrite = true) :
    ∀ before, firstFailure before (evs ++ tail) =
      if (∃ e ∈ evs, e.fatalWrite = true) then some 9
      else firstFailure (before ++ evs) tail := by
  induction evs with
  | nil => intro before; simp
  | cons e rest ih =>
    intro before
    have hw := h e (List.mem_cons_self _ _)
    have ih2 := ih (fun x hx => h x (List.mem_cons_of_mem _ hx)) (before ++ [e])
    simp only [List.cons_append, firstFailure, stepCode_write before e hw]
    by_cases hf : e.fatalWrite = true
    · simp [hf]
    · simp only [hf, Bool.false_eq_true, if_false, List.append_eq, ih2, List.mem_cons,
        exists_eq_or_imp, false_or, List.append_assoc, List.singleton_append]

theorem Finish.fin_code_spec {fd m : Nat} {code : Option Int} {tail : List Event}
    {m2 : Nat} (h : Finish fd m false code tail m2) (before : List Event)
    (hb : before.any Event.opensForWrite = true) :
    ∀ c, code = some c → (firstFailure before tail).getD 0 = c := by
  intro c hc
  cases h with
  | stalled => cases hc
  | unclosed rm e m2 hr =>
    cases hc
    cases rm <;> simp [firstFailure, stepCode, hb]
  | done rm v m2 hr =>
    cases hc
    cases rm <;> simp [firstFailure, stepCode]

theorem Secured.sec_code_spec {clear : Bool} {m : Nat} {code : Option Int} {rest : List Event}
    {m2 : Nat} (h : Secured clear m code rest m2) (before : List Event) (snap : Option Nat) :
    ∀ c, code = some c →
      (firstFailure before (⟨Call.stat, Ret.ok m, snap⟩ :: rest)).getD 0 = c := by
  intro c hc
  cases h with
  | insecure hbits =>
    cases hc
    simp [firstFailure, stepCode, hbits]
  | locked e hbits =>
    cases hc
    simp [firstFailure, stepCode, hbits]
  | unopened v e rm m2 hbits hr =>
    cases hc
    simp [firstFailure, stepCode, hbits]
  | opened v fd evs tail m2 fatal code hbits hw hfat fin =>
    have hw2 : ∀ e ∈ evs, e.call.isWrite = true := fun e he => (hw e he).1
    simp only [firstFailure, stepCode, hbits, ne_eq, not_true_eq_false, if_false,
      List.cons_append, List.nil_append, List.append_assoc, List.append_eq]
    rw [firstFailure_writes evs tail hw2]
    cases fatal with
    | true =>
      have hx : ∃ e ∈ evs, e.fatalWrite = true := hfat.2 rfl
      cases fin
      cases hc
      simp [hx]
    | false =>
      have hx : ¬ ∃ e ∈ evs, e.fatalWrite = true := fun h => by
        have := hfat.1 h
        cases this
      simp only [hx, if_false]
      exact fin.fin_code_spec _ (by simp [Event.opensForWrite]) c hc

theorem Ran.ran_code_spec {file0 : Option File} {clear : Bool} {code : Option Int}
    {tr : List Event} {m : Option Nat} (h : Ran file0 clear code tr m) :
    ∀ c, code = some c → specCode tr = c := by
  intro c hc
  cases h with
  | statFailed e he =>
    cases hc
    simp [specCode, firstFailure, stepCode, he]
  | createFailed e =>
    cases hc
    simp [specCode, firstFailure, stepCode]
  | closeFailed cfd e _ =>
    cases hc
    simp [specCode, firstFailure, stepCode, Event.opensForWrite]
  | restatFailed cfd v e _ =>
    cases hc
    simp [specCode, firstFailure, stepCode]
  | existing f code rest m2 _ sec =>
    exact sec.sec_code_spec [] _ c hc
  | created cfd v code rest m2 _ sec =>
    have := sec.sec_code_spec
      [⟨Call.stat, Ret.err ENOENT, none⟩,
        ⟨Call.open ⟨true, true, false, false⟩ 0, Ret.ok cfd, some S_IFREG⟩,
        ⟨Call.close cfd, Ret.ok v, some S_IFREG⟩] (some S_IFREG) c hc
    simpa [specCode, firstFailure, stepCode] using this

/-! ## A restoring `chmod` that fails does not change the code -/

theorem sys_stat_same (env env2 : Env) (h : env.SameButRestore env2) (w : World) :
    sys_stat env2 w = sys_stat env w := by
  simp [sys_stat, h.1 w.clock Call.stat (by simp)]

theorem sys_open_same (env env2 : Env) (h : env.SameButRestore env2) (w : World)
    (fl : OFlags) (p : Nat) : sys_open env2 w fl p = sys_open env w fl p := by
  simp [sys_open, h.1 w.clock (Call.open fl p) (by simp)]

theorem sys_close_same (env env2 : Env) (h : env.SameButRestore env2) (w : World) (fd : Nat) :
    sys_close env2 w fd = sys_close env w fd := by
  simp [sys_close, h.1 w.clock (Call.close fd) (by simp)]

theorem sys_chmod_same (env env2 : Env) (h : env.SameButRestore env2) (w : World) (p : Nat)
    (hp : p ≠ 0) : sys_chmod env2 w p = sys_chmod env w p := by
  simp [sys_chmod, h.1 w.clock (Call.chmod p) (by simp [hp])]

theorem sys_write_same (env env2 : Env) (h : env.SameButRestore env2) (w : World) (fd : Nat)
    (buf : List Char) (count : Nat) : sys_write env2 w fd buf count = sys_write env w fd buf count := by
  simp [sys_write, h.1 w.clock (Call.write fd buf count) (by simp), h.2]

theorem write_all_same (env env2 : Env) (h : env.SameButRestore env2) (fd : Nat) (s : List Char)
    (n : Nat) : ∀ (fuel i : Nat) (w : World),
      write_all_loop env2 fd s n fuel i w = write_all_loop env fd s n fuel i w := by
  intro fuel
  induction fuel with
  | zero => intro i w; rfl
  | succ fuel ih =>
    intro i w
    simp only [write_all_loop, sys_write_same env env2 h, ih]

theorem sys_close_ret (env : Env) (w : World) (fd : Nat) :
    (sys_close env w fd).1 =
      match env.fault w.clock (Call.close fd) with
      | some e => Ret.err e
      | none => if fd ∈ w.fds then Ret.ok 0 else Ret.err EBADF := by
  cases hf : env.fault w.clock (Call.close fd) with
  | some e => simp [sys_close, hf, World.reply]
  | none => by_cases hfd : fd ∈ w.fds <;> simp [sys_close, hf, hfd, World.reply]

theorem close_code_same (env env2 : Env) (h : env.SameButRestore env2) (w w2 : World) (fd : Nat)
    (hc : w2.clock = w.clock) (hf : w2.fds = w.fds) :
    (match sys_close env2 w2 fd with
      | (Ret.err _, w7) => ((some 10 : Option Int), w7.perror "close")
      | (Ret.ok _, w7) => (some 0, w7)).1 =
    (match sys_close env w fd with
      | (Ret.err _, w7) => ((some 10 : Option Int), w7.perror "close")
      | (Ret.ok _, w7) => (some 0, w7)).1 := by
  have e : (sys_close env2 w2 fd).1 = (sys_close env w fd).1 := by
    rw [sys_close_ret, sys_close_ret, hc, hf, h.1 w.clock (Call.close fd) (by simp)]
  rcases h1 : sys_close env2 w2 fd with ⟨r1, w7⟩
  rcases h2 : sys_close env w fd with ⟨r2, w8⟩
  rw [h1, h2] at e
  simp only [] at e
  subst e
  cases r1 <;> rfl

theorem main_write_same (env env2 : Env) (h : env.SameButRestore env2) (fuel : Nat)
    (msg : String) (w : World) (fd : Nat) :
    (main_write fuel env2 msg w fd).1 = (main_write fuel env msg w fd).1 := by
  unfold main_write write_all
  simp only [write_all_same env env2 h]
  rcases write_all_loop env fd msg.toList msg.length fuel 0 w with ⟨r1, w3⟩
  cases r1 with
  | none => rfl
  | some v1 =>
    simp only []
    by_cases hv : v1 < 0
    · simp [hv, main_write_failed_code]
    · simp only [hv, if_false]
      rcases write_all_loop env fd ['\n'] 1 fuel 0 w3 with ⟨r2, w4⟩
      cases r2 with
      | none => rfl
      | some v2 =>
        simp only []
        by_cases hv2 : v2 < 0
        · simp [hv2, main_write_failed_code]
        · simp only [hv2, if_false]
          obtain ⟨ra, Fa, ha, _⟩ := sys_chmod_spec env w4 0
          obtain ⟨rb, Fb, hb, _⟩ := sys_chmod_spec env2 w4 0
          rw [ha, hb]
          cases ra <;> cases rb <;> simp only [] <;>
            exact close_code_same env env2 h _ _ fd rfl rfl

theorem main_secured_same (env env2 : Env) (h : env.SameButRestore env2) (fuel : Nat)
    (clear : Bool) (path msg : String) (st_mode : Nat) (w : World) :
    (main_secured fuel env2 clear path msg st_mode w).1 =
      (main_secured fuel env clear path msg st_mode w).1 := by
  unfold main_secured
  by_cases hbits : st_mode &&& 0o777 ≠ 0
  · simp [hbits]
  · simp only [hbits, if_false, sys_chmod_same env env2 h w 0o200 (by decide),
      sys_open_same env env2 h]
    rcases sys_chmod env w 0o200 with ⟨rc, w1⟩
    cases rc with
    | err _ => rfl
    | ok _ =>
      simp only []
      rcases sys_open env w1 ⟨false, false, clear, !clear⟩ 0 with ⟨ro, w2⟩
      cases ro with
      | err _ => rfl
      | ok fd => exact main_write_same env env2 h fuel msg w2 fd

theorem main_same (env env2 : Env) (h : env.SameButRestore env2) (fuel : Nat)
    (argv : List String) (w : World) : (main fuel env2 argv w).1 = (main fuel env argv w).1 := by
  unfold main
  rcases scanArgs (argv.drop 1) (false, none, none) with ⟨clear, path, msg⟩
  cases path with
  | none => rfl
  | some path =>
    cases msg with
    | none => rfl
    | some msg =>
      simp only [sys_stat_same env env2 h, sys_open_same env env2 h, sys_close_same env env2 h]
      rcases sys_stat env w with ⟨rs, w0⟩
      cases rs with
      | ok m => exact main_secured_same env env2 h fuel clear path msg m w0
      | err e =>
        simp only []
        by_cases he : e = ENOENT
        · simp only [he, ne_eq, not_true_eq_false, if_false]
          rcases sys_open env w0 ⟨true, true, false, false⟩ 0 with ⟨ro, w1⟩
          cases ro with
          | err _ => rfl
          | ok cfd =>
            simp only []
            rcases sys_close env w1 cfd with ⟨rc, w2⟩
            cases rc with
            | err _ => rfl
            | ok _ =>
              simp only []
              rcases sys_stat env w2 with ⟨rs2, w3⟩
              cases rs2 with
              | err _ => rfl
              | ok m => exact main_secured_same env env2 h fuel clear path msg m w3
        · simp [he]

/-- C4: when path and message are given, the code `main` returns is the code
of the first failing step of its trace (2 initial `stat` other than `ENOENT`,
3 creating `open`, 4 `close` after creation, 5 `stat` after creation, 6
permission bits not 0, 7 elevating `chmod`, 8 `open` for writing, 9 write
other than `EINTR`, 10 final `close`) and 0 when no step fails; what happens
to a `chmod` to 0 does not change the code; and `main` does return when
writes accept between one byte and the bytes requested and only finitely
many are interrupted. -/
theorem main_code_first_failure (fuel : Nat) (env : Env) (argv : List String)
    (file0 : Option File) (clear : Bool) (path msg : String)
    (hargs : scanArgs (argv.drop 1) (false, none, none) = (clear, some path, some msg)) :
    (∀ c, (main fuel env argv (boot file0)).1 = some c →
      specCode (main fuel env argv (boot file0)).2.trace = c) ∧
    (∀ env2, env.SameButRestore env2 →
      (main fuel env2 argv (boot file0)).1 = (main fuel env argv (boot file0)).1) ∧
    (∀ b, env.WellFormed → env.CalmFrom b → msg.length < SIZE_MOD → msg.length + b + 1 < fuel →
      (main fuel env argv (boot file0)).1 ≠ none) := by
  refine ⟨(main_shape fuel env argv file0 clear path msg hargs).ran_code_spec,
    fun env2 h => main_same env env2 h fuel argv _, ?_⟩
  intro b hwf hb hsz hfuel
  exact main_returns fuel env argv _ b hwf hb (by
    intro m hm
    rw [hargs] at hm
    cases hm
    exact ⟨hsz, hfuel⟩)

theorem main_code_first_failure_witness :
    specCode (main 3 brokenEnv ["z2079516", "note.txt", "b"]
      (boot (some ⟨S_IFREG, ['a', '\n']⟩))).2.trace = 10 :=
  (main_code_first_failure 3 brokenEnv ["z2079516", "note.txt", "b"]
    (some ⟨S_IFREG, ['a', '\n']⟩) false "note.txt" "b" (by decide)).1 10 (by decide)

/-! ## The permission window -/

theorem restoreStep_write (p : Bool) (e : Event) (h : e.call.isWrite = true) :
    restoreStep p e = p := by
  rcases e with ⟨c, r, m⟩
  cases c <;> simp_all [restoreStep, Call.isWrite]

theorem elevatedStep_write (el : Bool) (e : Event) (h : e.call.isWrite = true) :
    elevatedStep el e = el := by
  rcases e with ⟨c, r, m⟩
  cases c <;> simp_all [elevatedStep, Call.isWrite]

theorem awaitsRestore_writes (evs tail : List Event) (h : ∀ e ∈ evs, e.call.isWrite = true) :
    ∀ p, awaitsRestore p (evs ++ tail) = awaitsRestore p tail := by
  induction evs with
  | nil => intro p; rfl
  | cons e rest ih =>
    intro p
    simp only [List.cons_append, awaitsRestore, List.append_eq,
      restoreStep_write p e (h e (List.mem_cons_self _ _))]
    exact ih (fun x hx => h x (List.mem_cons_of_mem _ hx)) p

theorem inWindow_writes (evs tail : List Event) (m1 : Nat) (el : Bool)
    (h : ∀ e ∈ evs, e.call.isWrite = true ∧ e.mode = some m1)
    (hm : m1 &&& 0o777 = if el then 0o200 else 0) (ht : InWindow el tail) :
    InWindow el (evs ++ tail) := by
  induction evs with
  | nil => exact ht
  | cons e rest ih =>
    obtain ⟨hw, hmode⟩ := h e (List.mem_cons_self _ _)
    refine ⟨?_, ?_⟩
    · intro m hme
      rw [hmode] at hme
      cases hme
      rw [elevatedStep_write el e hw]
      exact hm
    · rw [elevatedStep_write el e hw]
      exact ih (fun x hx => h x (List.mem_cons_of_mem _ hx))

theorem Restored.restored_window {m1 m2 : Nat} {rm : Ret} (h : Restored m1 rm m2)
    (hm : m1 &&& 0o777 = 0o200) :
    (m2 &&& 0o777 = if elevatedStep true ⟨Call.chmod 0, rm, some m2⟩ then 0o200 else 0) ∧
    ((∃ v, rm = Ret.ok v) → m2 &&& 0o777 = 0) := by
  rcases h with ⟨e, rfl, rfl⟩ | ⟨v, rfl, rfl⟩
  · simp [elevatedStep, hm]
  · have := perm_bits_after_chmod (m1 / 4096) 0
    simp only [Nat.zero_mod, Nat.add_zero] at this
    simp [elevatedStep, this]

theorem Finish.fin_window {fd m1 : Nat} {fatal : Bool} {code : Option Int} {tail : List Event}
    {m2 : Nat} (h : Finish fd m1 fatal code tail m2) (hm : m1 &&& 0o777 = 0o200) :
    InWindow true tail ∧ (code ≠ none → awaitsRestore true tail = false) ∧
    (code ≠ none → (∀ e ∈ tail, e.call = Call.chmod 0 → ∃ v, e.ret = Ret.ok v) →
      m2 &&& 0o777 = 0) := by
  cases h with
  | stalled => simp [InWindow]
  | failed rc rm m2 hr =>
    obtain ⟨w1, w2⟩ := hr.restored_window hm
    refine ⟨?_, by cases rm <;> simp [awaitsRestore, restoreStep], ?_⟩
    · simp only [InWindow, elevatedStep, and_true]
      exact ⟨by simp [hm], by simpa using w1⟩
    · intro _ hall
      have hx : ∃ v, (⟨Call.chmod 0, rm, some m2⟩ : Event).ret = Ret.ok v :=
        hall ⟨Call.chmod 0, rm, some m2⟩ (by simp) rfl
      exact w2 hx
  | unclosed rm e m2 hr =>
    obtain ⟨w1, w2⟩ := hr.restored_window hm
    refine ⟨?_, by cases rm <;> simp [awaitsRestore, restoreStep], ?_⟩
    · simp only [InWindow, and_true]
      refine ⟨by simpa using w1, ?_⟩
      simpa [elevatedStep] using w1
    · intro _ hall
      have hx : ∃ v, (⟨Call.chmod 0, rm, some m2⟩ : Event).ret = Ret.ok v :=
        hall ⟨Call.chmod 0, rm, some m2⟩ (by simp) rfl
      exact w2 hx
  | done rm v m2 hr =>
    obtain ⟨w1, w2⟩ := hr.restored_window hm
    refine ⟨?_, by cases rm <;> simp [awaitsRestore, restoreStep], ?_⟩
    · simp only [InWindow, and_true]
      refine ⟨by simpa using w1, ?_⟩
      simpa [elevatedStep] using w1
    · intro _ hall
      have hx : ∃ v, (⟨Call.chmod 0, rm, some m2⟩ : Event).ret = Ret.ok v :=
        hall ⟨Call.chmod 0, rm, some m2⟩ (by simp) rfl
      exact w2 hx

theorem Secured.sec_window {clear : Bool} {m : Nat} {code : Option Int} {rest : List Event}
    {m2 : Nat} (h : Secured clear m code rest m2) (hm : m &&& 0o777 = 0) :
    InWindow false rest ∧ (code ≠ none → awaitsRestore false rest = false) ∧
    (code ≠ none → (∀ e ∈ rest, e.call = Call.chmod 0 → ∃ v, e.ret = Ret.ok v) →
      m2 &&& 0o777 = 0) := by
  have hm1 : (m / 4096 * 4096 + 0o200 % 4096) &&& 0o777 = 0o200 := by
    have := perm_bits_after_chmod (m / 4096) 0o200
    simpa using this
  cases h with
  | insecure hbits => exact absurd hm hbits
  | locked e _ =>
    refine ⟨?_, by simp [awaitsRestore, restoreStep], fun _ _ => hm⟩
    simp [InWindow, elevatedStep, hm]
  | unopened v e rm m2 _ hr =>
    obtain ⟨w1, w2⟩ := hr.restored_window hm1
    refine ⟨?_, by cases rm <;> simp [awaitsRestore, restoreStep], ?_⟩
    · simp only [InWindow, elevatedStep, and_true]
      exact ⟨by simpa using hm1, by simpa using hm1, by simpa using w1⟩
    · intro _ hall
      have hx : ∃ v, (⟨Call.chmod 0, rm, some m2⟩ : Event).ret = Ret.ok v :=
        hall ⟨Call.chmod 0, rm, some m2⟩ (by simp) rfl
      exact w2 hx
  | opened v fd evs tail m2 fatal code _ hw hfat fin =>
    obtain ⟨f1, f2, f3⟩ := fin.fin_window hm1
    have hw2 : ∀ e ∈ evs, e.call.isWrite = true := fun e he => (hw e he).1
    refine ⟨?_, ?_, ?_⟩
    · simp only [List.cons_append, List.nil_append, InWindow, elevatedStep]
      refine ⟨by simpa using hm1, by simpa using hm1, ?_⟩
      exact inWindow_writes evs tail _ true hw (by simpa using hm1) f1
    · intro hc
      simp only [List.cons_append, List.nil_append, awaitsRestore, restoreStep, List.append_eq]
      rw [awaitsRestore_writes evs tail hw2]
      simpa using f2 hc
    · intro hc hall
      exact f3 hc (fun e he => hall e (List.mem_append_right _ he))

theorem Ran.ran_window {file0 : Option File} {clear : Bool} {code : Option Int}
    {tr : List Event} {m : Option Nat} (h : Ran file0 clear code tr m)
    (hstart : ∀ f, file0 = some f → f.mode &&& 0o777 = 0) :
    InWindow false tr ∧ (code ≠ none → awaitsRestore false tr = false) ∧
    (code ≠ none → (∀ e ∈ tr, e.call = Call.chmod 0 → ∃ v, e.ret = Ret.ok v) →
      ∀ x, m = some x → x &&& 0o777 = 0) := by
  have hs : ∀ x, file0.map File.mode = some x → x &&& 0o777 = 0 := by
    intro x hx
    cases file0 with
    | none => cases hx
    | some f =>
      cases hx
      exact hstart f rfl
  have hreg : S_IFREG &&& 0o777 = 0 := by decide
  cases h with
  | statFailed e _ =>
    refine ⟨?_, by simp [awaitsRestore, restoreStep], fun _ _ => hs⟩
    simpa [InWindow, elevatedStep] using hs
  | createFailed e =>
    refine ⟨?_, by simp [awaitsRestore, restoreStep], fun _ _ => hs⟩
    simpa [InWindow, elevatedStep] using hs
  | closeFailed cfd e _ =>
    refine ⟨?_, by simp [awaitsRestore, restoreStep], ?_⟩
    · simp [InWindow, elevatedStep, hreg]
    · intro _ _ x hx
      cases hx
      exact hreg
  | restatFailed cfd v e _ =>
    refine ⟨?_, by simp [awaitsRestore, restoreStep], ?_⟩
    · simp [InWindow, elevatedStep, hreg]
    · intro _ _ x hx
      cases hx
      exact hreg
  | existing f code rest m2 hf sec =>
    have hm := hstart f hf
    obtain ⟨s1, s2, s3⟩ := sec.sec_window hm
    refine ⟨?_, ?_, ?_⟩
    · simp only [InWindow, elevatedStep]
      exact ⟨by simpa using hm, s1⟩
    · intro hc
      simpa [awaitsRestore, restoreStep] using s2 hc
    · intro hc hall x hx
      cases hx
      exact s3 hc (fun e he => hall e (List.mem_cons_of_mem _ he))
  | created cfd v code rest m2 _ sec =>
    obtain ⟨s1, s2, s3⟩ := sec.sec_window hreg
    refine ⟨?_, ?_, ?_⟩
    · simp only [List.cons_append, List.nil_append, InWindow, elevatedStep]
      simpa [hreg] using s1
    · intro hc
      simpa [awaitsRestore, restoreStep] using s2 hc
    · intro hc hall x hx
      cases hx
      exact s3 hc (fun e he => hall e (List.mem_append_right _ he))

theorem restoreStep_true (e : Event) (h : e.call ≠ Call.chmod 0) : restoreStep true e = true := by
  rcases e with ⟨c, r, m⟩
  cases c with
  | chmod perm =>
    have hp : perm ≠ 0 := fun hp => h (by simp [hp])
    cases r <;> simp [restoreStep, hp]
  | _ => cases r <;> rfl

theorem awaitsRestore_true (post : List Event) (h : awaitsRestore true post = false) :
    ∃ e2 ∈ post, e2.call = Call.chmod 0 := by
  induction post with
  | nil => cases h
  | cons e rest ih =>
    by_cases hc : e.call = Call.chmod 0
    · exact ⟨e, List.mem_cons_self _ _, hc⟩
    · simp only [awaitsRestore, restoreStep_true e hc] at h
      obtain ⟨e2, he2, hc2⟩ := ih h
      exact ⟨e2, List.mem_cons_of_mem _ he2, hc2⟩

theorem elevatedStep_true (el : Bool) (e : Event) (h : elevatedStep el e = true) :
    (e.call = Call.chmod 0o200 ∧ ∃ v, e.ret = Ret.ok v) ∨
      (el = true ∧ elevatedStep el e = el) := by
  rcases e with ⟨c, r, m⟩
  cases c with
  | chmod perm =>
    cases r with
    | ok v =>
      simp only [elevatedStep, decide_eq_true_eq] at h
      exact Or.inl ⟨by simp [h], v, rfl⟩
    | err _ => exact Or.inr ⟨h, rfl⟩
  | _ => cases r <;> exact Or.inr ⟨h, rfl⟩

theorem restoreStep_of_elevated (el p : Bool) (e : Event) (hel : el = true → p = true)
    (hok : e.call = Call.chmod 0 → ∃ v, e.ret = Ret.ok v) (h : elevatedStep el e = true) :
    restoreStep p e = true := by
  rcases e with ⟨c, r, m⟩
  cases c with
  | chmod perm =>
    cases r with
    | ok v =>
      simp only [elevatedStep, decide_eq_true_eq] at h
      simp [restoreStep, h]
    | err x =>
      have hp : perm ≠ 0 := by
        intro hp
        obtain ⟨v, hv⟩ := hok (by simp [hp])
        cases hv
      simp only [elevatedStep] at h
      simp [restoreStep, hp, hel h]
  | _ =>
    cases r <;> simp only [elevatedStep] at h <;> simp [restoreStep, hel h]

/-- From the window property to positions in the trace: an event after which
the permission bits are not 0 leaves them 0200, comes at or after a `chmod`
to 0200 that succeeded (or the stretch started elevated), and, when no wait
for a restoring `chmod` is left open and every `chmod` to 0 succeeded, comes
before a `chmod` to 0. -/
theorem between_of_window (pre : List Event) :
    ∀ (el p : Bool) (e : Event) (post : List Event) (m : Nat),
      InWindow el (pre ++ e :: post) → e.mode = some m → m &&& 0o777 ≠ 0 →
      m &&& 0o777 = 0o200 ∧
      (el = true ∨ ∃ e1 ∈ pre ++ [e], e1.call = Call.chmod 0o200 ∧ ∃ v, e1.ret = Ret.ok v) ∧
      ((el = true → p = true) → awaitsRestore p (pre ++ e :: post) = false →
        (∀ x ∈ pre ++ e :: post, x.call = Call.chmod 0 → ∃ v, x.ret = Ret.ok v) →
        ∃ e2 ∈ post, e2.call = Call.chmod 0) := by
  induction pre with
  | nil =>
    intro el p e post m hw hm hbits
    obtain ⟨h1, _⟩ := hw
    have h2 := h1 m hm
    have hel : elevatedStep el e = true := by
      by_contra hne
      simp only [hne, Bool.false_eq_true, if_false] at h2
      exact hbits h2
    simp only [hel, if_true] at h2
    refine ⟨h2, ?_, ?_⟩
    · rcases elevatedStep_true el e hel with hc | ⟨ht, _⟩
      · exact Or.inr ⟨e, by simp, hc⟩
      · exact Or.inl ht
    · intro hp ha hall
      have := restoreStep_of_elevated el p e hp (hall e (by simp)) hel
      simp only [List.nil_append, awaitsRestore, this] at ha
      exact awaitsRestore_true post ha
  | cons a pre ih =>
    intro el p e post m hw hm hbits
    obtain ⟨_, hw2⟩ := hw
    obtain ⟨i1, i2, i3⟩ := ih (elevatedStep el a) (restoreStep p a) e post m hw2 hm hbits
    refine ⟨i1, ?_, ?_⟩
    · rcases i2 with h | ⟨e1, he1, hc⟩
      · rcases elevatedStep_true el a h with hc | ⟨ht, _⟩
        · exact Or.inr ⟨a, by simp, hc⟩
        · exact Or.inl ht
      · exact Or.inr ⟨e1, List.mem_cons_of_mem _ he1, hc⟩
    · intro hp ha hall
      refine i3 ?_ ha (fun x hx => hall x (List.mem_cons_of_mem _ hx))
      intro h
      exact restoreStep_of_elevated el p a hp (hall a (by simp)) h

/-- C5: in a run of `main` that starts with the file absent or with
permission bits 0, at every moment the bits are 0200 if the last `chmod` that
succeeded was the elevating one and 0 otherwise; when `main` returns, with
whatever code, a `chmod` to 0 has been attempted after every elevation that
succeeded; if every such `chmod` succeeded, the bits are 0 at that point;
and a moment at which the bits are not 0 has them at 0200, comes at or after
an elevating `chmod` that succeeded and, when `main` returns and every
`chmod` to 0 succeeded, before a `chmod` to 0. -/
theorem main_window (fuel : Nat) (env : Env) (argv : List String) (file0 : Option File)
    (hstart : ∀ f, file0 = some f → f.mode &&& 0o777 = 0) :
    InWindow false (main fuel env argv (boot file0)).2.trace ∧
    ((main fuel env argv (boot file0)).1 ≠ none →
      awaitsRestore false (main fuel env argv (boot file0)).2.trace = false) ∧
    ((main fuel env argv (boot file0)).1 ≠ none →
      (∀ e ∈ (main fuel env argv (boot file0)).2.trace,
        e.call = Call.chmod 0 → ∃ v, e.ret = Ret.ok v) →
      ∀ f, (main fuel env argv (boot file0)).2.file = some f → f.mode &&& 0o777 = 0) ∧
    (∀ pre e post m, (main fuel env argv (boot file0)).2.trace = pre ++ e :: post →
      e.mode = some m → m &&& 0o777 ≠ 0 →
      m &&& 0o777 = 0o200 ∧
      (∃ e1 ∈ pre ++ [e], e1.call = Call.chmod 0o200 ∧ ∃ v, e1.ret = Ret.ok v) ∧
      ((main fuel env argv (boot file0)).1 ≠ none →
        (∀ x ∈ (main fuel env argv (boot file0)).2.trace,
          x.call = Call.chmod 0 → ∃ v, x.ret = Ret.ok v) →
        ∃ e2 ∈ post, e2.call = Call.chmod 0)) := by
  have key : InWindow false (main fuel env argv (boot file0)).2.trace ∧
      ((main fuel env argv (boot file0)).1 ≠ none →
        awaitsRestore false (main fuel env argv (boot file0)).2.trace = false) ∧
      ((main fuel env argv (boot file0)).1 ≠ none →
        (∀ e ∈ (main fuel env argv (boot file0)).2.trace,
          e.call = Call.chmod 0 → ∃ v, e.ret = Ret.ok v) →
        ∀ f, (main fuel env argv (boot file0)).2.file = some f → f.mode &&& 0o777 = 0) := by
    rcases main_args_cases fuel env argv file0 with ⟨_, e⟩ | ⟨_, clear, path, msg, hscan⟩
    · rw [e]
      simp only [InWindow, awaitsRestore, true_and, implies_true]
      intro _ _ f hf
      exact hstart f hf
    · obtain ⟨w1, w2, w3⟩ := (main_shape fuel env argv file0 _ _ _ hscan).ran_window hstart
      refine ⟨w1, w2, ?_⟩
      intro hc hall f hf
      exact w3 hc hall f.mode (by rw [hf]; rfl)
  obtain ⟨k1, k2, k3⟩ := key
  refine ⟨k1, k2, k3, ?_⟩
  intro pre e post m htr hm hbits
  rw [htr] at k1 k2
  obtain ⟨b1, b2, b3⟩ := between_of_window pre false false e post m k1 hm hbits
  refine ⟨b1, ?_, ?_⟩
  · rcases b2 with h | h
    · cases h
    · exact h
  · intro hc hall
    rw [htr] at hall
    exact b3 (fun h => by cases h) (k2 hc) hall

theorem main_window_witness :
    InWindow false (main 3 brokenEnv ["z2079516", "note.txt", "b"]
      (boot (some ⟨S_IFREG, ['a', '\n']⟩))).2.trace ∧
    awaitsRestore false (main 3 brokenEnv ["z2079516", "note.txt", "b"]
      (boot (some ⟨S_IFREG, ['a', '\n']⟩))).2.trace = false :=
  ⟨(main_window 3 brokenEnv ["z2079516", "note.txt", "b"] (some ⟨S_IFREG, ['a', '\n']⟩)
      (fun f hf => by cases hf; decide)).1,
    (main_window 3 brokenEnv ["z2079516", "note.txt", "b"] (some ⟨S_IFREG, ['a', '\n']⟩)
      (fun f hf => by cases hf; decide)).2.1 (by decide)⟩

theorem main_descriptors_witness :
    OneAtATime [] (main 3 brokenEnv ["z2079516", "note.txt", "b"]
      (boot (some ⟨S_IFREG, ['a', '\n']⟩))).2.trace ∧
    liveAfter [] (main 3 brokenEnv ["z2079516", "note.txt", "b"]
      (boot (some ⟨S_IFREG, ['a', '\n']⟩))).2.trace = [] :=
  ⟨(main_descriptors 3 brokenEnv ["z2079516", "note.txt", "b"]
      (some ⟨S_IFREG, ['a', '\n']⟩)).1,
    (main_descriptors 3 brokenEnv ["z2079516", "note.txt", "b"]
      (some ⟨S_IFREG, ['a', '\n']⟩)).2.2.2 (by decide)⟩

end Z2079516
